import Mathlib

/-!
Verification development for the funding-rate arbitrage service.

The definitions below are a shallow embedding of the backend code
(`app/arb_engine.py`, `app/scheduler.py`, `app/db/repository.py`,
`app/venues/hyperliquid.py`).  Python floats are modelled as exact
rationals, timestamps as rationals counting seconds, SQL tables for one
(instrument, short venue, long venue) key as the list of rows the
descending-order query returns (newest first), and Python dicts as
association lists with first-match lookup and in-place overwrite on
insert.  Fallible venue fetches are modelled with `Except`, and the
notification sink with a boolean oracle.
-/

namespace FundingArb

/-- One row of the `spread_history` table (model of `SpreadHistory` in
`app/db/models.py`): timestamp in seconds, gross and net spread, and the
optional price-spread percentage. -/
structure SpreadRecord where
  ts : ℚ
  spread : ℚ
  net_spread : ℚ
  price_spread_pct : Option ℚ := none
deriving DecidableEq, Repr

/-- The loop of `get_continuous_duration` (repository.py): walk the tail of
the newest-first history, keeping the timestamp of the last record seen
while every record stays at or above the threshold, and stop at the first
record strictly below it. -/
def continuousStart (start : ℚ) (min_net_spread : ℚ) : List SpreadRecord → ℚ
  | [] => start
  | r :: rest =>
      if r.net_spread < min_net_spread then start
      else continuousStart r.ts min_net_spread rest

/-- `get_continuous_duration` from `app/db/repository.py`, with the ambient
clock (`datetime.utcnow()`) passed explicitly as `now` and the history for
the key passed as the newest-first list the descending query returns.
Returns the length, in fractional hours, of the newest-first run of records
with `net_spread >= min_net_spread`; `none` when the history is empty or
the newest record is strictly below the threshold. -/
def get_continuous_duration (now : ℚ) (hist : List SpreadRecord)
    (min_net_spread : ℚ) : Option ℚ :=
  match hist with
  | [] => none
  | h :: t =>
      if h.net_spread < min_net_spread then none
      else some ((now - continuousStart h.ts min_net_spread t) / 3600)

/-- The continuous run at a threshold: the maximal newest-first prefix of
the history whose records all have `net_spread >= thr`.  This is the
specification-level description of the run that `get_continuous_duration`
measures. -/
def continuousRun (thr : ℚ) (hist : List SpreadRecord) : List SpreadRecord :=
  hist.takeWhile (fun r => decide (thr ≤ r.net_spread))

theorem continuousStart_eq_getLastD (thr : ℚ) :
    ∀ (t : List SpreadRecord) (start : ℚ),
      continuousStart start thr t
        = ((t.takeWhile (fun r => decide (thr ≤ r.net_spread))).map
            SpreadRecord.ts).getLastD start := by
  intro t
  induction t with
  | nil => intro start; simp [continuousStart]
  | cons r rest ih =>
      intro start
      by_cases h : r.net_spread < thr
      · rw [List.takeWhile_cons_of_neg (by simpa using h)]
        simp [continuousStart, if_pos h]
      · rw [List.takeWhile_cons_of_pos (by simpa using not_lt.mp h)]
        rw [List.map_cons, List.getLastD_cons]
        simpa [continuousStart, if_neg h] using ih r.ts

theorem head?_dropWhile_false {α : Type} (p : α → Bool) :
    ∀ (l : List α) (r : α), (l.dropWhile p).head? = some r → p r = false := by
  intro l
  induction l with
  | nil => intro r h; simp [List.dropWhile] at h
  | cons a l ih =>
      intro r h
      rw [List.dropWhile_cons] at h
      by_cases ha : p a = true
      · exact ih r (by simpa [ha] using h)
      · have hfa : p a = false := by simpa using ha
        rw [hfa] at h
        simp only [Bool.false_eq_true, if_false, List.head?_cons,
          Option.some.injEq] at h
        rw [← h]
        exact hfa

theorem getLast?_cons_eq_getLastD {α : Type} :
    ∀ (l : List α) (a : α), (a :: l).getLast? = some (l.getLastD a) := by
  intro l
  induction l with
  | nil => intro a; rfl
  | cons b l ih =>
      intro a
      rw [List.getLastD_cons]
      rw [← ih b]
      rfl

theorem getLastD_map {α β : Type} (f : α → β) :
    ∀ (l : List α) (a : α), (l.map f).getLastD (f a) = f (l.getLastD a) := by
  intro l
  induction l with
  | nil => intro a; rfl
  | cons b l ih =>
      intro a
      rw [List.map_cons, List.getLastD_cons, List.getLastD_cons]
      exact ih b

theorem drop_length_takeWhile_eq_dropWhile {α : Type} (p : α → Bool) :
    ∀ l : List α, l.drop (l.takeWhile p).length = l.dropWhile p := by
  intro l
  induction l with
  | nil => rfl
  | cons a l ih =>
      by_cases ha : p a = true
      · rw [List.takeWhile_cons_of_pos ha, List.dropWhile_cons_of_pos ha]
        simpa using ih
      · have hfa : p a = false := by simpa using ha
        rw [List.takeWhile_cons_of_neg (by simp [hfa]),
          List.dropWhile_cons_of_neg (by simp [hfa])]
        rfl

/-- C1: for every history (newest first) and threshold,
`get_continuous_duration` returns `none` exactly when the history is empty
or the newest record has `net_spread` strictly below the threshold;
otherwise the continuous run is the maximal newest-first prefix whose
records all satisfy `net_spread >= threshold` (the next record, when one
exists, is strictly below), and the returned duration is `now` minus the
timestamp of the oldest record of the run, in fractional hours. -/
theorem continuous_duration_matches_run (now thr : ℚ) (hist : List SpreadRecord) :
    (get_continuous_duration now hist thr = none ↔
        hist = [] ∨ ∃ r t, hist = r :: t ∧ r.net_spread < thr) ∧
    (∀ d, get_continuous_duration now hist thr = some d →
        continuousRun thr hist <+: hist ∧
        (∀ r ∈ continuousRun thr hist, thr ≤ r.net_spread) ∧
        (∀ r, (hist.drop (continuousRun thr hist).length).head? = some r →
            r.net_spread < thr) ∧
        ∃ r, (continuousRun thr hist).getLast? = some r ∧
            d = (now - r.ts) / 3600) := by
  constructor
  · cases hist with
    | nil => simp [get_continuous_duration]
    | cons h t =>
        by_cases hh : h.net_spread < thr
        · simp only [get_continuous_duration, if_pos hh]
          exact ⟨fun _ => Or.inr ⟨h, t, rfl, hh⟩, fun _ => by simp⟩
        · simp only [get_continuous_duration, if_neg hh]
          refine ⟨fun hcon => absurd hcon (Option.some_ne_none _), ?_⟩
          rintro (hnil | ⟨r, t', heq, hr⟩)
          · exact absurd hnil (List.cons_ne_nil h t)
          · injection heq with h1 _
            rw [← h1] at hr
            exact absurd hr hh
  · intro d hd
    cases hist with
    | nil => simp [get_continuous_duration] at hd
    | cons h t =>
        by_cases hh : h.net_spread < thr
        · simp [get_continuous_duration, if_pos hh] at hd
        · have hrun : continuousRun thr (h :: t)
              = h :: t.takeWhile (fun r => decide (thr ≤ r.net_spread)) := by
            unfold continuousRun
            exact List.takeWhile_cons_of_pos (by simpa using not_lt.mp hh)
          have hdval : d = (now - continuousStart h.ts thr t) / 3600 := by
            simp only [get_continuous_duration, if_neg hh, Option.some.injEq] at hd
            exact hd.symm
          refine ⟨?_, ?_, ?_, ?_⟩
          · unfold continuousRun
            exact List.takeWhile_prefix _
          · intro r hr
            unfold continuousRun at hr
            simpa using List.mem_takeWhile_imp hr
          · intro r hr
            unfold continuousRun at hr
            rw [drop_length_takeWhile_eq_dropWhile] at hr
            have := head?_dropWhile_false _ _ _ hr
            simpa using this
          · refine ⟨(t.takeWhile (fun r => decide (thr ≤ r.net_spread))).getLastD h,
              ?_, ?_⟩
            · rw [hrun]; exact getLast?_cons_eq_getLastD _ h
            · rw [hdval, continuousStart_eq_getLastD]
              rw [show h.ts = SpreadRecord.ts h from rfl, getLastD_map]

/-- Python `sum` over a list of rationals. -/
def rsum (l : List ℚ) : ℚ := l.foldl (· + ·) 0

/-- Python `min` over a non-empty list (the empty case never occurs in the
code paths modelled here; it is given an arbitrary value). -/
def pymin : List ℚ → ℚ
  | [] => 0
  | x :: xs => xs.foldl min x

/-- Python `max` over a non-empty list. -/
def pymax : List ℚ → ℚ
  | [] => 0
  | x :: xs => xs.foldl max x

/-- The trend classification shared by `get_spread_stats` and
`get_extended_spread_stats` (repository.py): with at least 6 points compare
the mean of the last 3 against the mean of the previous 3; with at least 2
points compare last against first; otherwise the series is labelled new.
The 5 percent bands 1.05 and 0.95 are the exact rationals 21/20 and 19/20.
`spreads` is in chronological (ascending) order, as in the code. -/
def trendOf (spreads : List ℚ) : String :=
  if 6 ≤ spreads.length then
    let recent := rsum (spreads.drop (spreads.length - 3)) / 3
    let earlier := rsum ((spreads.drop (spreads.length - 6)).take 3) / 3
    if earlier * (21 / 20) < recent then "widening"
    else if recent < earlier * (19 / 20) then "narrowing"
    else "stable"
  else if 2 ≤ spreads.length then
    if (spreads.headD 0) * (21 / 20) < spreads.getLastD 0 then "widening"
    else if spreads.getLastD 0 < (spreads.headD 0) * (19 / 20) then "narrowing"
    else "stable"
  else "new"

/-- The ascending-order windowed query issued by
`get_extended_spread_stats`: all records of the key with `ts >= cutoff`,
oldest first.  The stored history of the key is represented by the
newest-first list `hist_desc`, so the ascending result is the reverse of
the filtered list. -/
def queryAsc (hist_desc : List SpreadRecord) (cutoff : ℚ) : List SpreadRecord :=
  (hist_desc.filter (fun r => decide (cutoff ≤ r.ts))).reverse

/-- The record returned by `get_extended_spread_stats`. -/
structure ExtStats where
  duration_hours : ℚ
  avg_spread : ℚ
  min_spread : ℚ
  max_spread : ℚ
  trend : String
  data_points : ℕ
  price_spread_pct : Option ℚ
  price_spread_avg : Option ℚ
deriving DecidableEq, Repr

/-- `get_extended_spread_stats` from `app/db/repository.py`: compute the
continuous duration at the threshold, clamp it to the window
`min(24, max(1, duration))` hours, re-query the records of that window in
ascending order, and derive avg, min, max, trend and data point count from
the `net_spread` values of the window (the `fee_buffer` argument is
accepted and unused, exactly as in the code). -/
def get_extended_spread_stats (now : ℚ) (hist_desc : List SpreadRecord)
    (min_net_spread : ℚ) (fee_buffer : ℚ) : Option ExtStats :=
  match get_continuous_duration now hist_desc min_net_spread with
  | none => none
  | some duration =>
      let hours_to_check := min 24 (max 1 duration)
      let cutoff := now - hours_to_check * 3600
      let history := queryAsc hist_desc cutoff
      match history with
      | [] => none
      | _ :: _ =>
          let spreads := history.map SpreadRecord.net_spread
          let price_spreads := history.filterMap SpreadRecord.price_spread_pct
          some
            { duration_hours := duration
              avg_spread := rsum spreads / (spreads.length : ℚ)
              min_spread := pymin spreads
              max_spread := pymax spreads
              trend := trendOf spreads
              data_points := spreads.length
              price_spread_pct := price_spreads.getLast?
              price_spread_avg :=
                match price_spreads with
                | [] => none
                | _ :: _ => some (rsum price_spreads / (price_spreads.length : ℚ)) }
theorem getLastD_mem {α : Type} :
    ∀ (l : List α) (d : α), l ≠ [] → l.getLastD d ∈ l := by
  intro l
  induction l with
  | nil => intro d h; exact absurd rfl h
  | cons a t ih =>
      intro d _
      cases t with
      | nil => simp [List.getLastD_cons]
      | cons b t' =>
          rw [List.getLastD_cons]
          exact List.mem_cons_of_mem a (ih a (by simp))

theorem sorted_getLastD_le (l : List SpreadRecord)
    (hl : l.Pairwise (fun a b => b.ts < a.ts)) (d : SpreadRecord) :
    ∀ a ∈ l, (l.getLastD d).ts ≤ a.ts := by
  induction l generalizing d with
  | nil => intro a ha; simp at ha
  | cons x xs ih =>
      intro a ha
      rw [List.getLastD_cons]
      rcases List.mem_cons.mp ha with rfl | hmem
      · cases xs with
        | nil => simp [List.getLastD]
        | cons y ys =>
            have hx : ∀ b ∈ y :: ys, b.ts < a.ts := (List.pairwise_cons.mp hl).1
            have : (y :: ys).getLastD a ∈ y :: ys := getLastD_mem _ a (by simp)
            exact le_of_lt (hx _ this)
      · exact ih (List.pairwise_cons.mp hl).2 x a hmem

theorem le_foldl_min (θ : ℚ) :
    ∀ (xs : List ℚ) (x : ℚ), θ ≤ x → (∀ y ∈ xs, θ ≤ y) →
      θ ≤ xs.foldl min x := by
  intro xs
  induction xs with
  | nil => intro x hx _; exact hx
  | cons y ys ih =>
      intro x hx hall
      exact ih (min x y) (le_min hx (hall y (by simp)))
        (fun z hz => hall z (by simp [hz]))

theorem le_pymin (θ : ℚ) (l : List ℚ) (hne : l ≠ [])
    (hall : ∀ x ∈ l, θ ≤ x) : θ ≤ pymin l := by
  cases l with
  | nil => exact absurd rfl hne
  | cons x xs =>
      exact le_foldl_min θ xs x (hall x (by simp))
        (fun y hy => hall y (by simp [hy]))

/-- When the continuous duration lies between 1 and 24 hours and the
stored timestamps are strictly decreasing, the windowed ascending query in
`get_extended_spread_stats` returns exactly the continuous run (oldest
first). -/
theorem window_eq_run (now θ d : ℚ) (hist : List SpreadRecord)
    (hsort : hist.Pairwise (fun a b => b.ts < a.ts))
    (hdur : get_continuous_duration now hist θ = some d)
    (h1 : 1 ≤ d) (h24 : d ≤ 24) :
    queryAsc hist (now - min 24 (max 1 d) * 3600)
      = (continuousRun θ hist).reverse := by
  have hclamp : min 24 (max 1 d) = d := by
    rw [max_eq_right h1, min_eq_right h24]
  cases hist with
  | nil => simp [get_continuous_duration] at hdur
  | cons h t =>
      by_cases hh : h.net_spread < θ
      · simp [get_continuous_duration, if_pos hh] at hdur
      · have hp : (fun r : SpreadRecord => decide (θ ≤ r.net_spread)) h = true := by
          simpa using not_lt.mp hh
        have hrun : continuousRun θ (h :: t)
            = h :: t.takeWhile (fun r => decide (θ ≤ r.net_spread)) :=
          List.takeWhile_cons_of_pos hp
        set last :=
          (t.takeWhile (fun r => decide (θ ≤ r.net_spread))).getLastD h with hlast
        have hdval : d = (now - last.ts) / 3600 := by
          simp only [get_continuous_duration, if_neg hh, Option.some.injEq] at hdur
          rw [← hdur, continuousStart_eq_getLastD,
            show h.ts = SpreadRecord.ts h from rfl, getLastD_map]
        have hcut : now - min 24 (max 1 d) * 3600 = last.ts := by
          rw [hclamp, hdval, div_mul_cancel₀ _ (by norm_num : (3600 : ℚ) ≠ 0)]
          ring
        have hlast_run : last = (continuousRun θ (h :: t)).getLastD h := by
          rw [hrun, List.getLastD_cons]
        have hrun_ne : continuousRun θ (h :: t) ≠ [] := by
          rw [hrun]; simp
      -- split of the history into the run and its complement
        have hsplit : continuousRun θ (h :: t)
            ++ (h :: t).dropWhile (fun r => decide (θ ≤ r.net_spread)) = h :: t := by
          unfold continuousRun
          exact List.takeWhile_append_dropWhile _ _
        have hrun_pair : (continuousRun θ (h :: t)).Pairwise
            (fun a b => b.ts < a.ts) :=
          hsort.sublist (List.IsPrefix.sublist (List.takeWhile_prefix _))
        have hmem_run : ∀ r ∈ continuousRun θ (h :: t), last.ts ≤ r.ts := by
          intro r hr
          rw [hlast_run]
          exact sorted_getLastD_le _ hrun_pair h r hr
        have hmem_rest : ∀ r ∈ (h :: t).dropWhile
            (fun r => decide (θ ≤ r.net_spread)), r.ts < last.ts := by
          intro r hr
          have hpa := (List.pairwise_append.mp (by rw [hsplit]; exact hsort)).2.2
          exact hpa last (hlast_run ▸ getLastD_mem _ h hrun_ne) r hr
        have h1f : (continuousRun θ (h :: t)).filter
            (fun r => decide (last.ts ≤ r.ts)) = continuousRun θ (h :: t) := by
          rw [List.filter_eq_self]
          intro a ha
          simpa using hmem_run a ha
        have h2f : ((h :: t).dropWhile
            (fun r => decide (θ ≤ r.net_spread))).filter
            (fun r => decide (last.ts ≤ r.ts)) = [] := by
          rw [List.filter_eq_nil_iff]
          intro a ha
          simpa using not_le.mpr (hmem_rest a ha)
        unfold queryAsc
        rw [hcut]
        congr 1
        conv_lhs => rw [← hsplit]
        rw [List.filter_append, h1f, h2f, List.append_nil]

theorem run_ne_nil_of_some_duration (now θ d : ℚ) (hist : List SpreadRecord)
    (hdur : get_continuous_duration now hist θ = some d) :
    continuousRun θ hist ≠ [] := by
  cases hist with
  | nil => simp [get_continuous_duration] at hdur
  | cons h t =>
      by_cases hh : h.net_spread < θ
      · simp [get_continuous_duration, if_pos hh] at hdur
      · rw [continuousRun,
          List.takeWhile_cons_of_pos (by simpa using not_lt.mp hh)]
        simp

/-- C2 (amended): when the continuous duration lies in the clamp band
(between 1 and 24 hours) and the stored timestamps are strictly
decreasing, the secondary statistics of `get_extended_spread_stats` are
derived from the net spreads of the run records only: the data point
count, avg, min, max and trend are those of the run in chronological
order, the minimum is at or above the threshold, and a single-record run
is labelled new.  (Outside the band the queried window deviates from the
run; see the counterexample.) -/
theorem extended_stats_scoped_to_run_in_band (now θ fee d : ℚ)
    (hist : List SpreadRecord)
    (hsort : hist.Pairwise (fun a b => b.ts < a.ts))
    (hdur : get_continuous_duration now hist θ = some d)
    (h1 : 1 ≤ d) (h24 : d ≤ 24) :
    ∃ s, get_extended_spread_stats now hist θ fee = some s ∧
      s.duration_hours = d ∧
      s.data_points = (continuousRun θ hist).length ∧
      s.avg_spread
        = rsum ((continuousRun θ hist).reverse.map SpreadRecord.net_spread)
            / (((continuousRun θ hist).reverse.map SpreadRecord.net_spread).length : ℚ) ∧
      s.min_spread
        = pymin ((continuousRun θ hist).reverse.map SpreadRecord.net_spread) ∧
      s.max_spread
        = pymax ((continuousRun θ hist).reverse.map SpreadRecord.net_spread) ∧
      s.trend
        = trendOf ((continuousRun θ hist).reverse.map SpreadRecord.net_spread) ∧
      θ ≤ s.min_spread ∧
      ((continuousRun θ hist).length = 1 → s.trend = "new") := by
  have hwin := window_eq_run now θ d hist hsort hdur h1 h24
  have hne := run_ne_nil_of_some_duration now θ d hist hdur
  have hrevne : (continuousRun θ hist).reverse ≠ [] := by simpa using hne
  obtain ⟨y, ys, hys⟩ := List.exists_cons_of_ne_nil hrevne
  have hall : ∀ x ∈ (continuousRun θ hist).reverse.map SpreadRecord.net_spread,
      θ ≤ x := by
    intro x hx
    obtain ⟨r, hr, rfl⟩ := List.mem_map.mp hx
    have hr' : r ∈ continuousRun θ hist := List.mem_reverse.mp hr
    unfold continuousRun at hr'
    simpa using List.mem_takeWhile_imp hr'
  have hmapne : (continuousRun θ hist).reverse.map SpreadRecord.net_spread ≠ [] := by
    rw [hys]; simp
  have hgss : get_extended_spread_stats now hist θ fee = some
      { duration_hours := d
        avg_spread :=
          rsum ((continuousRun θ hist).reverse.map SpreadRecord.net_spread)
            / (((continuousRun θ hist).reverse.map SpreadRecord.net_spread).length : ℚ)
        min_spread :=
          pymin ((continuousRun θ hist).reverse.map SpreadRecord.net_spread)
        max_spread :=
          pymax ((continuousRun θ hist).reverse.map SpreadRecord.net_spread)
        trend :=
          trendOf ((continuousRun θ hist).reverse.map SpreadRecord.net_spread)
        data_points :=
          ((continuousRun θ hist).reverse.map SpreadRecord.net_spread).length
        price_spread_pct :=
          ((continuousRun θ hist).reverse.filterMap SpreadRecord.price_spread_pct).getLast?
        price_spread_avg :=
          match (continuousRun θ hist).reverse.filterMap SpreadRecord.price_spread_pct with
          | [] => none
          | _ :: _ =>
              some (rsum ((continuousRun θ hist).reverse.filterMap SpreadRecord.price_spread_pct)
                / (((continuousRun θ hist).reverse.filterMap SpreadRecord.price_spread_pct).length : ℚ)) } := by
    simp only [get_extended_spread_stats, hdur]
    simp only [hwin, hys]
  refine ⟨_, hgss, rfl, by simp, rfl, rfl, rfl, rfl,
    le_pymin θ _ hmapne hall, ?_⟩
  intro hlen
  have hrl : (y :: ys).length = 1 := by
    rw [← hys, List.length_reverse, hlen]
  have hys0 : ys = [] := by simpa using hrl
  subst hys0
  have hsingle : (continuousRun θ hist).reverse.map SpreadRecord.net_spread
      = [y.net_spread] := by
    rw [hys]; rfl
  show trendOf ((continuousRun θ hist).reverse.map SpreadRecord.net_spread) = "new"
  rw [hsingle]
  norm_num [trendOf]

/-- C2 (counterexample): at threshold 1/10000 the history holding a newest
record of net spread 3/10000 and, ten minutes earlier, a record of net
spread 1/20000 (below threshold) has a continuous run of exactly one
record, yet `get_extended_spread_stats` reports trend widening rather than
new, and a minimum below the threshold: the one-hour floor of the queried
window pulls in the pre-run record, so the statistics are not derived from
the run records only. -/
theorem extended_stats_counterexample :
    (continuousRun (1/10000)
      [⟨0, 4/10000, 3/10000, none⟩, ⟨-600, 1/10000, 1/20000, none⟩]).length = 1 ∧
    (get_extended_spread_stats 0
      [⟨0, 4/10000, 3/10000, none⟩, ⟨-600, 1/10000, 1/20000, none⟩]
      (1/10000) (1/10000)).map ExtStats.trend = some "widening" ∧
    (get_extended_spread_stats 0
      [⟨0, 4/10000, 3/10000, none⟩, ⟨-600, 1/10000, 1/20000, none⟩]
      (1/10000) (1/10000)).map ExtStats.min_spread = some (1/20000) ∧
    (1 : ℚ)/20000 < 1/10000 := by
  refine ⟨?_, ?_, ?_, by norm_num⟩ <;>
    norm_num [continuousRun, get_extended_spread_stats, get_continuous_duration,
      continuousStart, queryAsc, trendOf, rsum, pymin, pymax]

theorem continuous_duration_matches_run_witness :
    ∃ r, (continuousRun (1/10000)
        [⟨0, 4/10000, 3/10000, none⟩, ⟨-7200, 4/10000, 2/10000, none⟩,
          ⟨-10800, 1/10000, 1/20000, none⟩]).getLast? = some r ∧
      (2 : ℚ) = (0 - r.ts) / 3600 :=
  ((continuous_duration_matches_run 0 (1/10000)
      [⟨0, 4/10000, 3/10000, none⟩, ⟨-7200, 4/10000, 2/10000, none⟩,
        ⟨-10800, 1/10000, 1/20000, none⟩]).2 2
    (by norm_num [get_continuous_duration, continuousStart])).2.2.2

theorem extended_stats_scoped_to_run_in_band_witness :
    ∃ s, get_extended_spread_stats 0
        [⟨0, 4/10000, 3/10000, none⟩, ⟨-7200, 4/10000, 2/10000, none⟩,
          ⟨-10800, 1/10000, 1/20000, none⟩] (1/10000) (1/10000) = some s ∧
      (1 : ℚ)/10000 ≤ s.min_spread ∧ s.data_points
        = (continuousRun (1/10000)
            [⟨0, 4/10000, 3/10000, none⟩, ⟨-7200, 4/10000, 2/10000, none⟩,
              ⟨-10800, 1/10000, 1/20000, none⟩]).length := by
  obtain ⟨s, hs, _, hdp, _, _, _, _, hmin, _⟩ :=
    extended_stats_scoped_to_run_in_band 0 (1/10000) (1/10000) 2
      [⟨0, 4/10000, 3/10000, none⟩, ⟨-7200, 4/10000, 2/10000, none⟩,
        ⟨-10800, 1/10000, 1/20000, none⟩]
      (by norm_num [List.pairwise_cons])
      (by norm_num [get_continuous_duration, continuousStart])
      (by norm_num) (by norm_num)
  exact ⟨s, hs, hmin, hdp⟩

/-! ## Python dict model and the opportunity computer -/

/-- First-match lookup in an association list: the read side of a Python
dict. -/
def dictFind {α : Type} (k : String) : List (String × α) → Option α
  | [] => none
  | (k2, v) :: rest => if k2 = k then some v else dictFind k rest

/-- Python dict assignment `m[k] = v`: overwrite the existing entry in
place, or append a fresh key at the end. -/
def dictInsert {α : Type} (k : String) (v : α) : List (String × α) → List (String × α)
  | [] => [(k, v)]
  | (k2, v2) :: rest =>
      if k2 = k then (k, v) :: rest else (k2, v2) :: dictInsert k v rest

/-- `venue_funding_map` and `venue_price_map`: dict from venue name to a
dict from symbol to rational value. -/
abbrev VenueMap : Type := List (String × List (String × ℚ))

/-- Python `map.get(venue, \x7b\x7d).get(symbol)`: the current rate (or
price) of a symbol on a venue, if present. -/
def rateOf (m : VenueMap) (venue symbol : String) : Option ℚ :=
  dictFind symbol ((dictFind venue m).getD [])

/-- `ArbOpportunity` from `app/arb_engine.py`. -/
structure ArbOpportunity where
  symbol : String
  short_venue : String
  short_funding : ℚ
  long_venue : String
  long_funding : ℚ
  spread : ℚ
  net_spread : ℚ
  short_price : Option ℚ := none
  long_price : Option ℚ := none
  price_spread_pct : Option ℚ := none
deriving DecidableEq, Repr

/-- The venue/rate pairs quoting a symbol, in venue-key order: the
`symbol_venues` accumulation inside `compute_all_arbs`. -/
def symbol_venues (symbol : String) (vfm : VenueMap) : List (String × ℚ) :=
  (vfm.map Prod.fst).filterMap (fun venue =>
    match dictFind venue vfm with
    | none => none
    | some rates => (dictFind symbol rates).map (fun r => (venue, r)))

/-- The price block of `compute_all_arbs`: look both venues up in the
price map when it is truthy (non-empty); the basis-risk percentage is
computed only when both prices are present and non-zero (Python float
truthiness). -/
def pricesFor (vpm : VenueMap) (symbol sv lv : String) :
    Option ℚ × Option ℚ × Option ℚ :=
  if vpm = [] then (none, none, none)
  else
    let sp := rateOf vpm sv symbol
    let lp := rateOf vpm lv symbol
    let psp :=
      match sp, lp with
      | some a, some b =>
          if a ≠ 0 ∧ b ≠ 0 then some (|a - b| / ((a + b) / 2)) else none
      | _, _ => none
    (sp, lp, psp)

/-- The opportunity record appended by `compute_all_arbs` for the indexed
short entry `p` and long entry `q` of the quoting list. -/
def mkArb (vpm : VenueMap) (fee_buffer : ℚ) (symbol : String)
    (p q : ℕ × (String × ℚ)) : ArbOpportunity :=
  let prices := pricesFor vpm symbol p.2.1 q.2.1
  { symbol := symbol
    short_venue := p.2.1
    short_funding := p.2.2
    long_venue := q.2.1
    long_funding := q.2.2
    spread := p.2.2 - q.2.2
    net_spread := p.2.2 - q.2.2 - fee_buffer
    short_price := prices.1
    long_price := prices.2.1
    price_spread_pct := prices.2.2 }

/-- `compute_all_arbs` from `app/arb_engine.py`: for every symbol, for
every ordered pair of distinct indices into the quoting venue list, emit
an opportunity when the spread is positive and the net spread is at or
above `min_spread`. -/
def compute_all_arbs (symbols : List String) (vfm : VenueMap)
    (fee_buffer : ℚ) (min_spread : ℚ) (vpm : VenueMap) : List ArbOpportunity :=
  symbols.flatMap (fun symbol =>
    let sv := symbol_venues symbol vfm
    if sv.length < 2 then []
    else
      sv.enum.flatMap (fun p =>
        sv.enum.filterMap (fun q =>
          if p.1 = q.1 then none
          else if p.2.2 - q.2.2 ≤ 0 then none
          else if p.2.2 - q.2.2 - fee_buffer < min_spread then none
          else some (mkArb vpm fee_buffer symbol p q))))

theorem dictFind_some_mem_keys {α : Type} (k : String) (v : α) :
    ∀ m : List (String × α), dictFind k m = some v → k ∈ m.map Prod.fst := by
  intro m
  induction m with
  | nil => intro h; simp [dictFind] at h
  | cons e rest ih =>
      intro h
      rw [dictFind] at h
      by_cases he : e.1 = k
      · simp [he]
      · rw [if_neg he] at h
        simp [ih h]

theorem symbol_venues_eq (s : String) (vfm : VenueMap) :
    symbol_venues s vfm
      = (vfm.map Prod.fst).filterMap
          (fun v => (rateOf vfm v s).map (fun r => (v, r))) := by
  unfold symbol_venues
  congr 1
  funext v
  unfold rateOf
  cases h : dictFind v vfm <;> simp [h, dictFind]

theorem mem_symbol_venues {s a : String} {ra : ℚ} {vfm : VenueMap} :
    (a, ra) ∈ symbol_venues s vfm ↔ rateOf vfm a s = some ra := by
  rw [symbol_venues_eq, List.mem_filterMap]
  constructor
  · rintro ⟨v, _, heq⟩
    rw [Option.map_eq_some'] at heq
    obtain ⟨r, hr, heq2⟩ := heq
    obtain ⟨rfl, rfl⟩ := Prod.mk.injEq .. ▸ And.intro
      (congrArg Prod.fst heq2) (congrArg Prod.snd heq2)
    exact hr
  · intro hr
    refine ⟨a, ?_, by rw [hr]; rfl⟩
    unfold rateOf at hr
    cases h : dictFind a vfm with
    | none => rw [h] at hr; simp [dictFind] at hr
    | some rates => exact dictFind_some_mem_keys a rates vfm h

theorem filterMap_option_tag {α : Type} (g : String → Option α) :
    ∀ l : List String,
      (l.filterMap (fun v => (g v).map (fun r => (v, r)))).map Prod.fst
        = l.filter (fun v => (g v).isSome) := by
  intro l
  induction l with
  | nil => rfl
  | cons v t ih =>
      cases h : g v with
      | none => simp [List.filterMap_cons, List.filter_cons, h, ih]
      | some r => simp [List.filterMap_cons, List.filter_cons, h, ih]

theorem symbol_venues_names_nodup {s : String} {vfm : VenueMap}
    (hk : (vfm.map Prod.fst).Nodup) :
    ((symbol_venues s vfm).map Prod.fst).Nodup := by
  rw [symbol_venues_eq, filterMap_option_tag]
  exact hk.filter _

/-- The inner guard chain of `compute_all_arbs`, characterized. -/
theorem compute_inner_eq_some {fee_buffer min_spread : ℚ} {vpm : VenueMap}
    {symbol : String} {p q : ℕ × (String × ℚ)} {o : ArbOpportunity} :
    (if p.1 = q.1 then none
      else if p.2.2 - q.2.2 ≤ 0 then none
      else if p.2.2 - q.2.2 - fee_buffer < min_spread then none
      else some (mkArb vpm fee_buffer symbol p q)) = some o ↔
      p.1 ≠ q.1 ∧ 0 < p.2.2 - q.2.2 ∧ min_spread ≤ p.2.2 - q.2.2 - fee_buffer ∧
        o = mkArb vpm fee_buffer symbol p q := by
  split_ifs with h1 h2 h3
  · simp [h1]
  · simp [h1, not_lt.mpr h2]
  · constructor
    · intro h; exact absurd h (by simp)
    · rintro ⟨_, _, hc, _⟩
      exact absurd hc (not_le.mpr h3)
  · constructor
    · intro h
      exact ⟨h1, not_le.mp h2, not_lt.mp h3, (Option.some.injEq .. ▸ h).symm⟩
    · rintro ⟨_, _, _, rfl⟩
      rfl

/-- Membership characterization for `compute_all_arbs`. -/
theorem mem_compute_all_arbs {symbols : List String} {vfm : VenueMap}
    {fee_buffer min_spread : ℚ} {vpm : VenueMap} {o : ArbOpportunity} :
    o ∈ compute_all_arbs symbols vfm fee_buffer min_spread vpm ↔
      ∃ s ∈ symbols, ∃ p ∈ (symbol_venues s vfm).enum,
        ∃ q ∈ (symbol_venues s vfm).enum,
          p.1 ≠ q.1 ∧ 0 < p.2.2 - q.2.2 ∧
          min_spread ≤ p.2.2 - q.2.2 - fee_buffer ∧
          o = mkArb vpm fee_buffer s p q := by
  unfold compute_all_arbs
  rw [List.mem_flatMap]
  constructor
  · rintro ⟨s, hs, ho⟩
    by_cases hlen : (symbol_venues s vfm).length < 2
    · rw [if_pos hlen] at ho
      simp at ho
    · rw [if_neg hlen] at ho
      rw [List.mem_flatMap] at ho
      obtain ⟨p, hp, ho⟩ := ho
      rw [List.mem_filterMap] at ho
      obtain ⟨q, hq, ho⟩ := ho
      rw [compute_inner_eq_some] at ho
      exact ⟨s, hs, p, hp, q, hq, ho.1, ho.2.1, ho.2.2.1, ho.2.2.2⟩
  · rintro ⟨s, hs, p, hp, q, hq, hne, hpos, hmin, rfl⟩
    refine ⟨s, hs, ?_⟩
    have hlen : ¬ (symbol_venues s vfm).length < 2 := by
      have hip := List.mk_mem_enum_iff_getElem?.mp (by exact hp)
      have hiq := List.mk_mem_enum_iff_getElem?.mp (by exact hq)
      have hl1 : p.1 < (symbol_venues s vfm).length :=
        List.getElem?_eq_some_iff.mp hip |>.1
      have hl2 : q.1 < (symbol_venues s vfm).length :=
        List.getElem?_eq_some_iff.mp hiq |>.1
      omega
    rw [if_neg hlen, List.mem_flatMap]
    refine ⟨p, hp, ?_⟩
    rw [List.mem_filterMap]
    exact ⟨q, hq, compute_inner_eq_some.mpr ⟨hne, hpos, hmin, rfl⟩⟩

theorem nodup_enum {α : Type} (l : List α) : l.enum.Nodup := by
  apply List.Nodup.of_map Prod.fst
  rw [List.enum_map_fst]
  exact List.nodup_range _

/-- In a quoting list with distinct venue names, an indexed entry is
determined by its venue name. -/
theorem enum_name_inj {sv : List (String × ℚ)}
    (hnames : (sv.map Prod.fst).Nodup) {p q : ℕ × (String × ℚ)}
    (hp : p ∈ sv.enum) (hq : q ∈ sv.enum) (hname : p.2.1 = q.2.1) : p = q := by
  obtain ⟨i, x⟩ := p
  obtain ⟨j, y⟩ := q
  have hx : sv[i]? = some x := List.mk_mem_enum_iff_getElem?.mp hp
  have hy : sv[j]? = some y := List.mk_mem_enum_iff_getElem?.mp hq
  have hxm : (sv.map Prod.fst)[i]? = some x.1 := by
    rw [List.getElem?_map, hx]; rfl
  have hym : (sv.map Prod.fst)[j]? = some y.1 := by
    rw [List.getElem?_map, hy]; rfl
  have hij : i = j :=
    List.getElem?_inj (List.getElem?_eq_some_iff.mp hxm).1 hnames
      (by rw [hxm, hym]; simpa using hname)
  subst hij
  rw [hx] at hy
  simp only [Option.some.injEq] at hy
  rw [hy]

theorem nodup_filterMap_on {α β : Type} {l : List α} (f : α → Option β)
    (hl : l.Nodup)
    (hinj : ∀ a ∈ l, ∀ a2 ∈ l, ∀ b, f a = some b → f a2 = some b → a = a2) :
    (l.filterMap f).Nodup := by
  induction l with
  | nil => simp
  | cons x t ih =>
      rw [List.filterMap_cons]
      have hnd := (List.nodup_cons.mp hl).2
      have hx := (List.nodup_cons.mp hl).1
      cases hfx : f x with
      | none =>
          exact ih hnd (fun a ha a2 ha2 b h1 h2 =>
            hinj a (by simp [ha]) a2 (by simp [ha2]) b h1 h2)
      | some b =>
          rw [List.nodup_cons]
          constructor
          · intro hmem
            obtain ⟨a, ha, hfa⟩ := List.mem_filterMap.mp hmem
            have : a = x := hinj a (by simp [ha]) x (by simp) b hfa hfx
            rw [this] at ha
            exact hx ha
          · exact ih hnd (fun a ha a2 ha2 c h1 h2 =>
              hinj a (by simp [ha]) a2 (by simp [ha2]) c h1 h2)

/-- The (symbol, short venue, long venue) projection used to count
opportunities per ordered venue pair. -/
def oppKey (o : ArbOpportunity) : String × String × String :=
  (o.symbol, o.short_venue, o.long_venue)

/-- C4 (amended): with distinct symbols and distinct venue keys,
`compute_all_arbs` emits at most one opportunity per (instrument, short,
long) triple; a triple appears exactly when both venues quote the
instrument, the short rate strictly exceeds the long rate, and the net
spread passes the `min_spread` filter; and every emitted opportunity
records the exact quoted rates with `spread` equal to the rate difference
and `net_spread` equal to `spread - fee_buffer`.  (Without the net-spread
condition the claim fails; see the counterexample.) -/
theorem compute_all_arbs_pairs (symbols : List String) (vfm : VenueMap)
    (fee_buffer min_spread : ℚ) (vpm : VenueMap)
    (hsym : symbols.Nodup) (hven : (vfm.map Prod.fst).Nodup) :
    (∀ o ∈ compute_all_arbs symbols vfm fee_buffer min_spread vpm,
        rateOf vfm o.short_venue o.symbol = some o.short_funding ∧
        rateOf vfm o.long_venue o.symbol = some o.long_funding ∧
        o.spread = o.short_funding - o.long_funding ∧
        o.net_spread = o.spread - fee_buffer ∧
        0 < o.spread ∧ min_spread ≤ o.net_spread) ∧
    ((compute_all_arbs symbols vfm fee_buffer min_spread vpm).map oppKey).Nodup ∧
    (∀ s a b : String,
        (s, a, b) ∈ (compute_all_arbs symbols vfm fee_buffer min_spread vpm).map oppKey
          ↔ s ∈ symbols ∧ a ≠ b ∧ ∃ ra rb : ℚ,
              rateOf vfm a s = some ra ∧ rateOf vfm b s = some rb ∧
              rb < ra ∧ min_spread ≤ ra - rb - fee_buffer) := by
  refine ⟨?_, ?_, ?_⟩
  · intro o ho
    obtain ⟨s, _, p, hp, q, hq, hne, hpos, hmin, rfl⟩ :=
      mem_compute_all_arbs.mp ho
    have hpm : (p.2.1, p.2.2) ∈ symbol_venues s vfm := by
      have := List.mk_mem_enum_iff_getElem?.mp
        (show (p.1, p.2) ∈ (symbol_venues s vfm).enum from hp)
      exact List.getElem?_mem this
    have hqm : (q.2.1, q.2.2) ∈ symbol_venues s vfm := by
      have := List.mk_mem_enum_iff_getElem?.mp
        (show (q.1, q.2) ∈ (symbol_venues s vfm).enum from hq)
      exact List.getElem?_mem this
    refine ⟨mem_symbol_venues.mp hpm, mem_symbol_venues.mp hqm, rfl, rfl, ?_, ?_⟩
    · exact hpos
    · exact hmin
  · unfold compute_all_arbs
    rw [List.map_flatMap]
    rw [List.nodup_flatMap]
    constructor
    · intro s hs
      by_cases hlen : (symbol_venues s vfm).length < 2
      · simp [hlen]
      · rw [if_neg hlen, List.map_flatMap, List.nodup_flatMap]
        have hnames := symbol_venues_names_nodup (s := s) hven
        constructor
        · intro p hp
          rw [List.map_filterMap]
          apply nodup_filterMap_on _ (nodup_enum _)
          intro q hq q2 hq2 b h1 h2
          rw [Option.map_eq_some'] at h1 h2
          obtain ⟨o1, ho1, hb1⟩ := h1
          obtain ⟨o2, ho2, hb2⟩ := h2
          rw [compute_inner_eq_some] at ho1 ho2
          apply enum_name_inj hnames hq hq2
          have e1 : b.2.2 = q.2.1 := by rw [← hb1, ho1.2.2.2]; rfl
          have e2 : b.2.2 = q2.2.1 := by rw [← hb2, ho2.2.2.2]; rfl
          rw [← e1, ← e2]
        · apply (nodup_enum (symbol_venues s vfm)).imp_of_mem
          intro p p2 hp hp2 hne
          intro x hx1 hx2
          simp only [Function.onFun] at hx1 hx2
          obtain ⟨o1, ho1, hb1⟩ := List.mem_map.mp (by
            rw [List.map_filterMap] at hx1
            obtain ⟨q, hq, hfq⟩ := List.mem_filterMap.mp hx1
            rw [Option.map_eq_some'] at hfq
            obtain ⟨o, hoe, hob⟩ := hfq
            exact List.mem_map.mpr ⟨o, by
              rw [List.mem_filterMap]; exact ⟨q, hq, hoe⟩, hob⟩)
          obtain ⟨o2, ho2, hb2⟩ := List.mem_map.mp (by
            rw [List.map_filterMap] at hx2
            obtain ⟨q, hq, hfq⟩ := List.mem_filterMap.mp hx2
            rw [Option.map_eq_some'] at hfq
            obtain ⟨o, hoe, hob⟩ := hfq
            exact List.mem_map.mpr ⟨o, by
              rw [List.mem_filterMap]; exact ⟨q, hq, hoe⟩, hob⟩)
          obtain ⟨q1, hq1, hoe1⟩ := List.mem_filterMap.mp ho1
          obtain ⟨q2, hq2, hoe2⟩ := List.mem_filterMap.mp ho2
          rw [compute_inner_eq_some] at hoe1 hoe2
          have e1 : x.2.1 = p.2.1 := by rw [← hb1, hoe1.2.2.2]; rfl
          have e2 : x.2.1 = p2.2.1 := by rw [← hb2, hoe2.2.2.2]; rfl
          exact hne (enum_name_inj hnames hp hp2 (by rw [← e1, ← e2]))
    · apply hsym.imp_of_mem
      intro s s2 _ _ hne x hx1 hx2
      simp only [Function.onFun] at hx1 hx2
      have e1 : x.1 = s := by
        by_cases hlen : (symbol_venues s vfm).length < 2
        · rw [if_pos hlen] at hx1; simp at hx1
        · rw [if_neg hlen] at hx1
          rw [List.map_flatMap] at hx1
          obtain ⟨p, _, hx⟩ := List.mem_flatMap.mp hx1
          rw [List.map_filterMap] at hx
          obtain ⟨q, _, hfq⟩ := List.mem_filterMap.mp hx
          rw [Option.map_eq_some'] at hfq
          obtain ⟨o, hoe, hob⟩ := hfq
          rw [compute_inner_eq_some] at hoe
          rw [← hob, hoe.2.2.2]
          rfl
      have e2 : x.1 = s2 := by
        by_cases hlen : (symbol_venues s2 vfm).length < 2
        · rw [if_pos hlen] at hx2; simp at hx2
        · rw [if_neg hlen] at hx2
          rw [List.map_flatMap] at hx2
          obtain ⟨p, _, hx⟩ := List.mem_flatMap.mp hx2
          rw [List.map_filterMap] at hx
          obtain ⟨q, _, hfq⟩ := List.mem_filterMap.mp hx
          rw [Option.map_eq_some'] at hfq
          obtain ⟨o, hoe, hob⟩ := hfq
          rw [compute_inner_eq_some] at hoe
          rw [← hob, hoe.2.2.2]
          rfl
      exact hne (e1 ▸ e2)
  · intro s a b
    have hnames := symbol_venues_names_nodup (s := s) hven
    constructor
    · intro hmem
      obtain ⟨o, ho, hk⟩ := List.mem_map.mp hmem
      obtain ⟨s2, hs2, p, hp, q, hq, hne, hpos, hmin, rfl⟩ :=
        mem_compute_all_arbs.mp ho
      have hkey : s2 = s ∧ p.2.1 = a ∧ q.2.1 = b := by
        unfold oppKey mkArb at hk
        exact ⟨congrArg Prod.fst hk,
          congrArg (Prod.fst ∘ Prod.snd) hk,
          congrArg (Prod.snd ∘ Prod.snd) hk⟩
      obtain ⟨hss, ha, hb⟩ := hkey
      rw [hss] at hs2 hp hq
      have hpm : (p.2.1, p.2.2) ∈ symbol_venues s vfm :=
        List.getElem?_mem (List.mk_mem_enum_iff_getElem?.mp
          (show (p.1, p.2) ∈ (symbol_venues s vfm).enum from hp))
      have hqm : (q.2.1, q.2.2) ∈ symbol_venues s vfm :=
        List.getElem?_mem (List.mk_mem_enum_iff_getElem?.mp
          (show (q.1, q.2) ∈ (symbol_venues s vfm).enum from hq))
      refine ⟨hs2, ?_, p.2.2, q.2.2,
        ha ▸ mem_symbol_venues.mp hpm, hb ▸ mem_symbol_venues.mp hqm,
        sub_pos.mp hpos, hmin⟩
      intro hab
      exact hne (congrArg Prod.fst
        (enum_name_inj hnames hp hq (by rw [ha, hb, hab])))
    · rintro ⟨hs, hab, ra, rb, hra, hrb, hlt, hmin⟩
      have hpm : (a, ra) ∈ symbol_venues s vfm := mem_symbol_venues.mpr hra
      have hqm : (b, rb) ∈ symbol_venues s vfm := mem_symbol_venues.mpr hrb
      obtain ⟨i, hi⟩ := List.mem_iff_getElem?.mp hpm
      obtain ⟨j, hj⟩ := List.mem_iff_getElem?.mp hqm
      have hpe : (i, (a, ra)) ∈ (symbol_venues s vfm).enum :=
        List.mk_mem_enum_iff_getElem?.mpr hi
      have hqe : (j, (b, rb)) ∈ (symbol_venues s vfm).enum :=
        List.mk_mem_enum_iff_getElem?.mpr hj
      have hij : i ≠ j := by
        intro h
        rw [h, hj] at hi
        simp only [Option.some.injEq, Prod.mk.injEq] at hi
        exact hab hi.1.symm
      refine List.mem_map.mpr ⟨mkArb vpm fee_buffer s (i, (a, ra)) (j, (b, rb)),
        mem_compute_all_arbs.mpr
          ⟨s, hs, (i, (a, ra)), hpe, (j, (b, rb)), hqe, hij,
            sub_pos.mpr hlt, hmin, rfl⟩, rfl⟩

/-- C4 (counterexample): venue X quotes BTC at 5/10000 and venue Y at
9/20000, so the ordered pair (X, Y) has a strictly positive rate
difference, yet with `fee_buffer = 1/10000` and `min_spread = 0` the net
spread is negative and `compute_all_arbs` returns no opportunity at all:
there is not exactly one opportunity per ordered pair with
`rate_short > rate_long`. -/
theorem compute_all_arbs_counterexample :
    rateOf [("X", [("BTC", 5/10000)]), ("Y", [("BTC", 9/20000)])] "X" "BTC"
        = some (5/10000) ∧
    rateOf [("X", [("BTC", 5/10000)]), ("Y", [("BTC", 9/20000)])] "Y" "BTC"
        = some (9/20000) ∧
    (9 : ℚ)/20000 < 5/10000 ∧
    compute_all_arbs ["BTC"] [("X", [("BTC", 5/10000)]), ("Y", [("BTC", 9/20000)])]
      (1/10000) 0 [] = [] := by
  refine ⟨rfl, rfl, by norm_num, ?_⟩
  norm_num [compute_all_arbs, symbol_venues, dictFind, List.enum,
    List.enumFrom, pricesFor, mkArb]

theorem compute_all_arbs_pairs_witness :
    ("BTC", "X", "Y") ∈ (compute_all_arbs ["BTC"]
        [("X", [("BTC", 5/10000)]), ("Y", [("BTC", -2/10000)])]
        (1/10000) 0 []).map oppKey := by
  have h := (compute_all_arbs_pairs ["BTC"]
      [("X", [("BTC", 5/10000)]), ("Y", [("BTC", -2/10000)])]
      (1/10000) 0 [] (by simp) (by simp)).2.2 "BTC" "X" "Y"
  exact h.mpr ⟨by simp, by simp, 5/10000, -2/10000, rfl, rfl,
    by norm_num, by norm_num⟩

/-! ## Established positions, the tier classifier and the exit check -/

/-- A row of `established_positions` (models `EstablishedPosition` in
`app/db/models.py`). -/
structure EstablishedPosition where
  key : String
  symbol : String
  short_venue : String
  long_venue : String
  established_at : ℚ
  last_seen_spread : ℚ
  is_active : Bool
  exit_alerted_at : Option ℚ
deriving DecidableEq, Repr

/-- `make_position_key` from `app/db/repository.py`. -/
def make_position_key (symbol short_venue long_venue : String) : String :=
  symbol ++ ":" ++ short_venue ++ ":" ++ long_venue

/-- `upsert_established_position` from `app/db/repository.py`: refresh the
first row matching the key (set the last seen spread, reactivate, clear
the exit timestamp, leave `established_at` alone), or insert a fresh row
with `established_at = now` when the key is absent. -/
def upsert_established_position (now : ℚ) (symbol short_venue long_venue : String)
    (spread : ℚ) : List EstablishedPosition → List EstablishedPosition
  | [] =>
      [{ key := make_position_key symbol short_venue long_venue
         symbol := symbol
         short_venue := short_venue
         long_venue := long_venue
         established_at := now
         last_seen_spread := spread
         is_active := true
         exit_alerted_at := none }]
  | p :: rest =>
      if p.key = make_position_key symbol short_venue long_venue then
        { p with last_seen_spread := spread, is_active := true,
                 exit_alerted_at := none } :: rest
      else p :: upsert_established_position now symbol short_venue long_venue spread rest

/-- `mark_position_exited` from `app/db/repository.py`: deactivate the
first row matching the key and stamp `exit_alerted_at = now`; a missing
key changes nothing. -/
def mark_position_exited (now : ℚ) (key : String) :
    List EstablishedPosition → List EstablishedPosition
  | [] => []
  | p :: rest =>
      if p.key = key then
        { p with is_active := false, exit_alerted_at := some now } :: rest
      else p :: mark_position_exited now key rest

/-- The configuration fields of `Settings` (`app/config.py`) used by the
classifier and the exit check; `channel_configured` is the truthiness of
`telegram_free_channel_id`. -/
structure Settings where
  fee_buffer : ℚ
  established_min_spread : ℚ
  emerging_min_spread : ℚ
  established_min_hours : ℚ
  channel_configured : Bool
deriving Repr

/-- The classification outcome of one opportunity in one cycle. -/
inductive Tier
  | established
  | emerging
  | untiered
deriving DecidableEq, Repr

/-- The emerging block of `classify_opportunities` (`app/scheduler.py`):
re-run the extended stats at the emerging threshold and classify Emerging
when stats exist and the current net spread passes the emerging
threshold; no state is written. -/
def classifyEmerging (now : ℚ) (st : Settings) (hist : List SpreadRecord)
    (opp : ArbOpportunity) (ps : List EstablishedPosition) :
    Tier × List EstablishedPosition :=
  match get_extended_spread_stats now hist st.emerging_min_spread st.fee_buffer with
  | some _ =>
      if st.emerging_min_spread ≤ opp.net_spread then (.emerging, ps)
      else (.untiered, ps)
  | none => (.untiered, ps)

/-- The per-opportunity body of `classify_opportunities`
(`app/scheduler.py`): run the extended stats at the established
threshold; when stats exist and the duration passes
`established_min_hours`, either classify Established and upsert the
position (net spread at or above the established threshold) or drop the
opportunity for this cycle (the `continue` after the inner test); only
when the duration gate fails does the emerging block run. -/
def classifyStep (now : ℚ) (st : Settings) (hist : List SpreadRecord)
    (opp : ArbOpportunity) (ps : List EstablishedPosition) :
    Tier × List EstablishedPosition :=
  match get_extended_spread_stats now hist st.established_min_spread st.fee_buffer with
  | some stats =>
      if st.established_min_hours ≤ stats.duration_hours then
        if st.established_min_spread ≤ opp.net_spread then
          (.established,
            upsert_established_position now opp.symbol opp.short_venue
              opp.long_venue opp.net_spread ps)
        else (.untiered, ps)
      else classifyEmerging now st hist opp ps
  | none => classifyEmerging now st hist opp ps

/-- The loop body of `classify_opportunities`: thread the per-opportunity
step through the accumulated established entries, emerging entries,
established key set and position store. -/
def classifyFold (now : ℚ) (st : Settings)
    (histories : String → String → String → List SpreadRecord)
    (acc : List ArbOpportunity × List ArbOpportunity × List String × List EstablishedPosition)
    (opp : ArbOpportunity) :
    List ArbOpportunity × List ArbOpportunity × List String × List EstablishedPosition :=
  let r := classifyStep now st (histories opp.symbol opp.short_venue opp.long_venue)
    opp acc.2.2.2
  match r.1 with
  | .established =>
      (acc.1 ++ [opp], acc.2.1,
        acc.2.2.1 ++ [make_position_key opp.symbol opp.short_venue opp.long_venue],
        r.2)
  | .emerging => (acc.1, acc.2.1 ++ [opp], acc.2.2.1, r.2)
  | .untiered => (acc.1, acc.2.1, acc.2.2.1, r.2)

/-- `classify_opportunities` (`app/scheduler.py`): fold the per-opportunity
step over the cycle, collecting the established entries, the emerging
entries, the set of established keys and the updated position store. -/
def classify_opportunities (now : ℚ) (st : Settings)
    (histories : String → String → String → List SpreadRecord)
    (opps : List ArbOpportunity) (ps : List EstablishedPosition) :
    List ArbOpportunity × List ArbOpportunity × List String × List EstablishedPosition :=
  opps.foldl (classifyFold now st histories) ([], [], [], ps)

/-- The per-position body of `check_exit_alerts` (`app/scheduler.py`):
skip keys still established this cycle, skip positions with a missing leg
rate, skip everything when no channel is configured; otherwise request
the exit notification (recorded in the sent list together with the
elapsed duration since `established_at`) and commit
`mark_position_exited` only when the send succeeded. -/
def exitStep (now : ℚ) (estKeys : List String) (vfm : VenueMap) (st : Settings)
    (sendOk : String → Bool)
    (acc : List EstablishedPosition × List (String × ℚ)) (p : EstablishedPosition) :
    List EstablishedPosition × List (String × ℚ) :=
  if p.key ∈ estKeys then acc
  else
    match rateOf vfm p.short_venue p.symbol, rateOf vfm p.long_venue p.symbol with
    | some _, some _ =>
        if st.channel_configured then
          let duration := (now - p.established_at) / 3600
          if sendOk p.key then
            (mark_position_exited now p.key acc.1, acc.2 ++ [(p.key, duration)])
          else (acc.1, acc.2 ++ [(p.key, duration)])
        else acc
    | _, _ => acc

/-- `check_exit_alerts` (`app/scheduler.py`): iterate over the snapshot of
active positions, returning the updated store and the list of
notification attempts (key and reported duration). -/
def check_exit_alerts (now : ℚ) (estKeys : List String) (vfm : VenueMap)
    (st : Settings) (sendOk : String → Bool) (ps : List EstablishedPosition) :
    List EstablishedPosition × List (String × ℚ) :=
  (ps.filter (fun p => p.is_active)).foldl (exitStep now estKeys vfm st sendOk) (ps, [])

/-! ## Venue fetch aggregation -/

/-- `FundingData` from `app/venues/base.py`. -/
structure FundingData where
  funding_rate : ℚ
  mark_price : Option ℚ := none
  index_price : Option ℚ := none
deriving DecidableEq, Repr

/-- One venue connector in one cycle: its name and the outcome of its
`fetch_funding_with_prices` call, either a symbol map or a raised error
(any exception or timeout). -/
structure Connector where
  venue_name : String
  fetch : Except String (List (String × FundingData))

/-- The loop body of `fetch_all_funding_with_prices`: a successful fetch
contributes its funding rates and its non-`None` mark prices under the
venue name, a raised error (or timeout) is logged and contributes
nothing. -/
def fetchFold (acc : VenueMap × VenueMap) (c : Connector) : VenueMap × VenueMap :=
  match c.fetch with
  | .ok data =>
      (dictInsert c.venue_name (data.map (fun e => (e.1, e.2.funding_rate))) acc.1,
        dictInsert c.venue_name
          (data.filterMap (fun e => e.2.mark_price.map (fun mp => (e.1, mp)))) acc.2)
  | .error _ => acc

/-- Whether the fetch of this connector succeeded this cycle. -/
def fetchOk (c : Connector) : Bool :=
  match c.fetch with
  | .ok _ => true
  | .error _ => false

/-- `fetch_all_funding_with_prices` (`app/scheduler.py`): loop over the
connectors, merging each successful result into the two maps. -/
def fetch_all_funding_with_prices (connectors : List Connector) :
    VenueMap × VenueMap :=
  connectors.foldl fetchFold ([], [])

/-! ## The Hyperliquid HIP-3 sub-market parser -/

/-- Python `float(x) if x else None` applied to an optional price: a
missing or zero price becomes `None`. -/
def truthyPrice : Option ℚ → Option ℚ
  | none => none
  | some x => if x = 0 then none else some x

/-- One entry of a HIP-3 dex universe joined with its asset context
(`app/venues/hyperliquid.py`): the raw asset name (such as `hyna:SOL`),
the delisting flag, and the optional funding, mark and oracle values. -/
structure Hip3Asset where
  name : String
  isDelisted : Bool
  funding : Option ℚ
  markPx : Option ℚ
  oraclePx : Option ℚ
deriving Repr

/-- Python `str.split(c)` on the character list of a string. -/
def splitOnChar (c : Char) : List Char → List (List Char)
  | [] => [[]]
  | x :: xs =>
      let r := splitOnChar c xs
      if x = c then [] :: r
      else
        match r with
        | [] => [[x]]
        | h :: t => (x :: h) :: t

/-- The base-name extraction of `_fetch_hip3_dex`:
`raw_name.split(":")[1]` when the name contains a colon, the raw name
otherwise. -/
def hip3_base (raw : String) : String :=
  ((splitOnChar ':' raw.data).map (fun l => String.mk l)).getD 1 raw

/-- `HIP3_NORMALIZE` from `app/venues/hyperliquid.py`. -/
def HIP3_NORMALIZE : List (String × String) :=
  [("GOLD", "XAUUSD"), ("SILVER", "XAGUSD"), ("PLATINUM", "XPTUSD"),
    ("PALLADIUM", "XPDUSD"), ("COPPER", "XCUUSD"), ("OIL", "XTIUSD")]

/-- The loop body of `_fetch_hip3_dex`: skip delisted or unnamed assets
and assets without funding; strip the `dex:` prefix from the raw name,
normalize commodity names, and store the result under the instrument key
`base_dex` with the hourly funding scaled to an 8-hour rate. -/
def hip3Fold (dex : String) (acc : List (String × FundingData))
    (a : Hip3Asset) : List (String × FundingData) :=
  if a.isDelisted then acc
  else if a.name = "" then acc
  else
    match a.funding with
    | none => acc
    | some f =>
        let base := hip3_base a.name
        let norm := (dictFind base HIP3_NORMALIZE).getD base
        dictInsert (norm ++ "_" ++ dex)
          { funding_rate := f * 8
            mark_price := truthyPrice a.markPx
            index_price := truthyPrice a.oraclePx } acc

/-- `HyperliquidVenue._fetch_hip3_dex` (`app/venues/hyperliquid.py`) after
JSON parsing. -/
def fetch_hip3_dex (dex : String) (assets : List Hip3Asset) :
    List (String × FundingData) :=
  assets.foldl (hip3Fold dex) []

/-- `get_established_position`: first row whose key matches. -/
def findPosition (key : String) (ps : List EstablishedPosition) :
    Option EstablishedPosition :=
  ps.find? (fun p => decide (p.key = key))

theorem findPosition_nil (key : String) : findPosition key [] = none := rfl

theorem findPosition_cons (key : String) (p : EstablishedPosition)
    (ps : List EstablishedPosition) :
    findPosition key (p :: ps)
      = if p.key = key then some p else findPosition key ps := by
  unfold findPosition
  by_cases h : p.key = key
  · rw [List.find?_cons_of_pos _ (by simpa using h), if_pos h]
  · rw [List.find?_cons_of_neg _ (by simpa using h), if_neg h]

theorem mark_findPosition_other (now : ℚ) (k k2 : String) (hne : k2 ≠ k) :
    ∀ ps : List EstablishedPosition,
      findPosition k2 (mark_position_exited now k ps) = findPosition k2 ps := by
  intro ps
  induction ps with
  | nil => rfl
  | cons p rest ih =>
      rw [mark_position_exited]
      by_cases h : p.key = k
      · rw [if_pos h, findPosition_cons, findPosition_cons]
        have : ¬ p.key = k2 := by rw [h]; exact fun hc => hne hc.symm
        rw [if_neg (by simpa using this), if_neg this]
      · rw [if_neg h, findPosition_cons, findPosition_cons, ih]

theorem mark_findPosition_same (now : ℚ) (k : String) :
    ∀ ps : List EstablishedPosition,
      findPosition k (mark_position_exited now k ps)
        = (findPosition k ps).map
            (fun p => { p with is_active := false, exit_alerted_at := some now }) := by
  intro ps
  induction ps with
  | nil => rfl
  | cons p rest ih =>
      rw [mark_position_exited]
      by_cases h : p.key = k
      · rw [if_pos h, findPosition_cons, findPosition_cons, if_pos h]
        simp [h]
      · rw [if_neg h, findPosition_cons, findPosition_cons, if_neg h, if_neg h, ih]

theorem mark_all_inactive (now : ℚ) (k : String) :
    ∀ ps : List EstablishedPosition,
      (ps.map EstablishedPosition.key).Nodup →
      ∀ p ∈ mark_position_exited now k ps, p.key = k → p.is_active = false := by
  intro ps
  induction ps with
  | nil => intro _ p hp; simp [mark_position_exited] at hp
  | cons q rest ih =>
      intro hnd p hp hpk
      rw [mark_position_exited] at hp
      by_cases h : q.key = k
      · rw [if_pos h] at hp
        rcases List.mem_cons.mp hp with rfl | hmem
        · rfl
        · exfalso
          rw [List.map_cons, List.nodup_cons] at hnd
          have hk : k ∈ rest.map EstablishedPosition.key :=
            List.mem_map.mpr ⟨p, hmem, hpk⟩
          rw [h] at hnd
          exact hnd.1 hk
      · rw [if_neg h] at hp
        rw [List.map_cons, List.nodup_cons] at hnd
        rcases List.mem_cons.mp hp with rfl | hmem
        · exact absurd hpk h
        · exact ih hnd.2 p hmem hpk

theorem findPosition_of_mem_nodup {ps : List EstablishedPosition}
    {p : EstablishedPosition} (hnd : (ps.map EstablishedPosition.key).Nodup)
    (hp : p ∈ ps) : findPosition p.key ps = some p := by
  induction ps with
  | nil => simp at hp
  | cons q rest ih =>
      rw [findPosition_cons]
      rcases List.mem_cons.mp hp with rfl | hmem
      · rw [if_pos rfl]
      · rw [List.map_cons, List.nodup_cons] at hnd
        by_cases h : q.key = p.key
        · exfalso
          have hk : p.key ∈ rest.map EstablishedPosition.key :=
            List.mem_map.mpr ⟨p, hmem, rfl⟩
          rw [h] at hnd
          exact hnd.1 hk
        · rw [if_neg h]
          exact ih hnd.2 hmem

theorem upsert_findPosition_same (now : ℚ) (sym sv lv : String) (v : ℚ)
    (ps : List EstablishedPosition) (p : EstablishedPosition)
    (hfind : findPosition (make_position_key sym sv lv) ps = some p) :
    findPosition (make_position_key sym sv lv)
        (upsert_established_position now sym sv lv v ps)
      = some { p with last_seen_spread := v, is_active := true,
                      exit_alerted_at := none } := by
  induction ps with
  | nil => rw [findPosition_nil] at hfind; cases hfind
  | cons q rest ih =>
      rw [findPosition_cons] at hfind
      rw [upsert_established_position]
      by_cases h : q.key = make_position_key sym sv lv
      · rw [if_pos h] at hfind
        rw [if_pos h, findPosition_cons]
        simp only [Option.some.injEq] at hfind
        rw [← hfind]
        rw [if_pos h]
      · rw [if_neg h] at hfind
        rw [if_neg h, findPosition_cons, if_neg h]
        exact ih hfind

theorem upsert_findPosition_other (now : ℚ) (sym sv lv : String) (v : ℚ)
    (k2 : String) (hne : k2 ≠ make_position_key sym sv lv) :
    ∀ ps : List EstablishedPosition,
      findPosition k2 (upsert_established_position now sym sv lv v ps)
        = findPosition k2 ps := by
  intro ps
  induction ps with
  | nil =>
      rw [upsert_established_position, findPosition_nil, findPosition_cons]
      rw [if_neg (fun hc => hne hc.symm), findPosition_nil]
  | cons q rest ih =>
      rw [upsert_established_position]
      by_cases h : q.key = make_position_key sym sv lv
      · rw [if_pos h, findPosition_cons, findPosition_cons]
        have : ¬ q.key = k2 := by rw [h]; exact fun hc => hne hc.symm
        rw [if_neg (by simpa using this), if_neg this]
      · rw [if_neg h, findPosition_cons, findPosition_cons, ih]

theorem upsert_idem (now : ℚ) (sym sv lv : String) (v : ℚ) :
    ∀ ps : List EstablishedPosition,
      upsert_established_position now sym sv lv v
          (upsert_established_position now sym sv lv v ps)
        = upsert_established_position now sym sv lv v ps := by
  intro ps
  induction ps with
  | nil =>
      rw [upsert_established_position, upsert_established_position, if_pos rfl]
  | cons q rest ih =>
      rw [upsert_established_position]
      by_cases h : q.key = make_position_key sym sv lv
      · rw [if_pos h, upsert_established_position, if_pos h]
      · rw [if_neg h, upsert_established_position, if_neg h, ih]

theorem exitStep_sent_sub (now : ℚ) (estKeys : List String) (vfm : VenueMap)
    (st : Settings) (send : String → Bool)
    (acc : List EstablishedPosition × List (String × ℚ)) (p : EstablishedPosition) :
    ∀ x ∈ (exitStep now estKeys vfm st send acc p).2,
      x ∈ acc.2 ∨ x = (p.key, (now - p.established_at) / 3600) := by
  intro x hx
  unfold exitStep at hx
  split at hx
  · exact Or.inl hx
  · split at hx
    case _ =>
      split at hx
      · split at hx
        · rcases List.mem_append.mp hx with h | h
          · exact Or.inl h
          · right; simpa using h
        · rcases List.mem_append.mp hx with h | h
          · exact Or.inl h
          · right; simpa using h
      · exact Or.inl hx
    all_goals exact Or.inl hx

theorem exitStep_store_cases (now : ℚ) (estKeys : List String) (vfm : VenueMap)
    (st : Settings) (send : String → Bool)
    (acc : List EstablishedPosition × List (String × ℚ)) (p : EstablishedPosition) :
    (exitStep now estKeys vfm st send acc p).1 = acc.1 ∨
    (exitStep now estKeys vfm st send acc p).1
      = mark_position_exited now p.key acc.1 := by
  unfold exitStep
  split
  · exact Or.inl rfl
  · split
    case _ =>
      split
      · split
        · exact Or.inr rfl
        · exact Or.inl rfl
      · exact Or.inl rfl
    all_goals exact Or.inl rfl

theorem foldl_exitStep_sent (now : ℚ) (estKeys : List String) (vfm : VenueMap)
    (st : Settings) (send : String → Bool) :
    ∀ (l : List EstablishedPosition)
      (acc : List EstablishedPosition × List (String × ℚ)),
      ∀ x ∈ (l.foldl (exitStep now estKeys vfm st send) acc).2,
        x ∈ acc.2 ∨ ∃ q ∈ l, x = (q.key, (now - q.established_at) / 3600) := by
  intro l
  induction l with
  | nil => intro acc x hx; exact Or.inl hx
  | cons p t ih =>
      intro acc x hx
      rw [List.foldl_cons] at hx
      rcases ih _ x hx with h | ⟨q, hq, he⟩
      · rcases exitStep_sent_sub now estKeys vfm st send acc p x h with h2 | h2
        · exact Or.inl h2
        · exact Or.inr ⟨p, by simp, h2⟩
      · exact Or.inr ⟨q, by simp [hq], he⟩

theorem foldl_exitStep_find_frame (now : ℚ) (estKeys : List String)
    (vfm : VenueMap) (st : Settings) (send : String → Bool) (k : String) :
    ∀ (l : List EstablishedPosition)
      (acc : List EstablishedPosition × List (String × ℚ)),
      (∀ q ∈ l, q.key ≠ k) →
      findPosition k (l.foldl (exitStep now estKeys vfm st send) acc).1
        = findPosition k acc.1 := by
  intro l
  induction l with
  | nil => intro acc _; rfl
  | cons p t ih =>
      intro acc hl
      rw [List.foldl_cons]
      rw [ih _ (fun q hq => hl q (by simp [hq]))]
      rcases exitStep_store_cases now estKeys vfm st send acc p with h | h
      · rw [h]
      · rw [h, mark_findPosition_other now p.key k (fun hc => hl p (by simp) hc.symm)]

/-- C6: once a position has been marked exited, re-running the exit check
(with any inputs) does not invoke the notification sink for that key
again: the key can reappear in the attempt list only after the store row
is re-activated (which only a fresh Established upsert does). -/
theorem exit_alerts_one_shot (now now2 : ℚ) (k : String)
    (estKeys : List String) (vfm : VenueMap) (st : Settings)
    (send : String → Bool) (ps : List EstablishedPosition)
    (hnd : (ps.map EstablishedPosition.key).Nodup) :
    k ∉ ((check_exit_alerts now2 estKeys vfm st send
        (mark_position_exited now k ps)).2.map Prod.fst) := by
  intro hmem
  obtain ⟨x, hx, hxk⟩ := List.mem_map.mp hmem
  unfold check_exit_alerts at hx
  rcases foldl_exitStep_sent now2 estKeys vfm st send _ _ x hx with h | ⟨q, hq, he⟩
  · simp at h
  · have hqf := List.mem_filter.mp hq
    have hkeyq : q.key = k := by
      rw [he] at hxk
      exact hxk
    have hinact := mark_all_inactive now k ps hnd q hqf.1 hkeyq
    have hqa : q.is_active = true := by simpa using hqf.2
    rw [hinact] at hqa
    cases hqa

theorem exit_alerts_one_shot_witness :
    "BTC:X:Y" ∉ ((check_exit_alerts 7200 [] []
        ⟨1/10000, 1/10000, 2/10000, 48, true⟩ (fun _ => true)
        (mark_position_exited 3600 "BTC:X:Y"
          [⟨"BTC:X:Y", "BTC", "X", "Y", 0, 3/10000, true, none⟩])).2.map Prod.fst) :=
  exit_alerts_one_shot 3600 7200 "BTC:X:Y" [] [] _ _ _ (by simp)

/-- C10: `upsert_established_position` on an existing key refreshes
`last_seen_spread`, re-activates the row and clears the exit timestamp,
but never touches `established_at` (or the identity fields); and every
exit alert attempt reports a duration measured as now minus the stored
row's `established_at`, so re-entry after an exit keeps measuring from
the original establishment time. -/
theorem established_at_invariant_under_upsert (now : ℚ)
    (sym sv lv : String) (v : ℚ) (ps : List EstablishedPosition)
    (p : EstablishedPosition)
    (hfind : findPosition (make_position_key sym sv lv) ps = some p) :
    (findPosition (make_position_key sym sv lv)
        (upsert_established_position now sym sv lv v ps)
      = some { p with last_seen_spread := v, is_active := true,
                      exit_alerted_at := none }) ∧
    ({ p with last_seen_spread := v, is_active := true,
              exit_alerted_at := none : EstablishedPosition }.established_at
      = p.established_at) ∧
    (∀ (now2 : ℚ) (estKeys : List String) (vfm : VenueMap) (st : Settings)
        (send : String → Bool) (ps2 : List EstablishedPosition),
      ∀ x ∈ (check_exit_alerts now2 estKeys vfm st send ps2).2,
        ∃ q ∈ ps2, q.is_active = true ∧ x.1 = q.key ∧
          x.2 = (now2 - q.established_at) / 3600) := by
  refine ⟨upsert_findPosition_same now sym sv lv v ps p hfind, rfl, ?_⟩
  intro now2 estKeys vfm st send ps2 x hx
  unfold check_exit_alerts at hx
  rcases foldl_exitStep_sent now2 estKeys vfm st send _ _ x hx with h | ⟨q, hq, he⟩
  · simp at h
  · have hqf := List.mem_filter.mp hq
    exact ⟨q, hqf.1, by simpa using hqf.2, by rw [he], by rw [he]⟩

/-- C5: for an active position whose key is not currently established,
with both leg rates available and the channel configured, the exit check
commits exactly on send success: a send that returns true leaves the row
inactive with `exit_alerted_at = now`, a send that returns false leaves
the stored row byte-for-byte unchanged. -/
theorem exit_alert_commit (now : ℚ) (estKeys : List String) (vfm : VenueMap)
    (st : Settings) (send : String → Bool) (ps : List EstablishedPosition)
    (p : EstablishedPosition) (sr lr : ℚ)
    (hnd : (ps.map EstablishedPosition.key).Nodup)
    (hp : p ∈ ps) (hact : p.is_active = true)
    (hkey : p.key ∉ estKeys)
    (hsr : rateOf vfm p.short_venue p.symbol = some sr)
    (hlr : rateOf vfm p.long_venue p.symbol = some lr)
    (hch : st.channel_configured = true) :
    (send p.key = true →
        findPosition p.key (check_exit_alerts now estKeys vfm st send ps).1
          = some { p with is_active := false, exit_alerted_at := some now }) ∧
    (send p.key = false →
        findPosition p.key (check_exit_alerts now estKeys vfm st send ps).1
          = some p) := by
  have hpa : p ∈ ps.filter (fun q => q.is_active) :=
    List.mem_filter.mpr ⟨hp, by simpa using hact⟩
  have hand : ((ps.filter (fun q => q.is_active)).map
      EstablishedPosition.key).Nodup :=
    hnd.sublist ((List.filter_sublist ps).map EstablishedPosition.key)
  obtain ⟨l1, l2, hsplit⟩ := List.append_of_mem hpa
  rw [hsplit] at hand
  rw [List.map_append, List.map_cons, List.nodup_append] at hand
  have h1 : ∀ q ∈ l1, q.key ≠ p.key := by
    intro q hq hc
    exact hand.2.2 (List.mem_map.mpr ⟨q, hq, rfl⟩) (by simp [hc])
  have h2 : ∀ q ∈ l2, q.key ≠ p.key := by
    intro q hq hc
    have := (List.nodup_cons.mp hand.2.1).1
    exact this (List.mem_map.mpr ⟨q, hq, hc⟩)
  have hfps : findPosition p.key ps = some p := findPosition_of_mem_nodup hnd hp
  unfold check_exit_alerts
  rw [hsplit, List.foldl_append, List.foldl_cons]
  have hstage1 : findPosition p.key
      (l1.foldl (exitStep now estKeys vfm st send) (ps, [])).1 = some p := by
    rw [foldl_exitStep_find_frame now estKeys vfm st send p.key l1 (ps, []) h1]
    exact hfps
  set s1 := l1.foldl (exitStep now estKeys vfm st send) (ps, []) with hs1
  have hstep : (exitStep now estKeys vfm st send s1 p)
      = (if send p.key then mark_position_exited now p.key s1.1 else s1.1,
          s1.2 ++ [(p.key, (now - p.established_at) / 3600)]) := by
    unfold exitStep
    rw [if_neg hkey, hsr, hlr, if_pos hch]
    by_cases hsend : send p.key = true
    · rw [if_pos hsend, if_pos hsend]
    · rw [if_neg hsend, if_neg hsend]
  constructor
  · intro hsend
    rw [foldl_exitStep_find_frame now estKeys vfm st send p.key l2 _ h2]
    rw [hstep, if_pos hsend]
    show findPosition p.key (mark_position_exited now p.key s1.1) = _
    rw [mark_findPosition_same, hstage1]
    rfl
  · intro hsend
    rw [foldl_exitStep_find_frame now estKeys vfm st send p.key l2 _ h2]
    rw [hstep, if_neg (by simp [hsend])]
    exact hstage1

theorem exit_alert_commit_witness :
    ((fun _ => true) "BTC:X:Y" = true →
        findPosition "BTC:X:Y"
          (check_exit_alerts 7200 [] [("X", [("BTC", 5/10000)]), ("Y", [("BTC", 4/10000)])]
            ⟨1/10000, 1/10000, 2/10000, 48, true⟩ (fun _ => true)
            [⟨"BTC:X:Y", "BTC", "X", "Y", 0, 3/10000, true, none⟩]).1
          = some ⟨"BTC:X:Y", "BTC", "X", "Y", 0, 3/10000, false, some 7200⟩) ∧
    ((fun _ => true) "BTC:X:Y" = false →
        findPosition "BTC:X:Y"
          (check_exit_alerts 7200 [] [("X", [("BTC", 5/10000)]), ("Y", [("BTC", 4/10000)])]
            ⟨1/10000, 1/10000, 2/10000, 48, true⟩ (fun _ => true)
            [⟨"BTC:X:Y", "BTC", "X", "Y", 0, 3/10000, true, none⟩]).1
          = some ⟨"BTC:X:Y", "BTC", "X", "Y", 0, 3/10000, true, none⟩) :=
  exit_alert_commit 7200 [] [("X", [("BTC", 5/10000)]), ("Y", [("BTC", 4/10000)])]
    ⟨1/10000, 1/10000, 2/10000, 48, true⟩ (fun _ => true)
    [⟨"BTC:X:Y", "BTC", "X", "Y", 0, 3/10000, true, none⟩]
    ⟨"BTC:X:Y", "BTC", "X", "Y", 0, 3/10000, true, none⟩
    (5/10000) (4/10000) (by simp) (by simp) rfl (by simp) rfl rfl rfl

theorem established_at_invariant_under_upsert_witness :
    findPosition (make_position_key "BTC" "X" "Y")
        (upsert_established_position 7200 "BTC" "X" "Y" (5/10000)
          [⟨"BTC:X:Y", "BTC", "X", "Y", 0, 3/10000, false, some 3600⟩])
      = some ⟨"BTC:X:Y", "BTC", "X", "Y", 0, 5/10000, true, none⟩ :=
  (established_at_invariant_under_upsert 7200 "BTC" "X" "Y" (5/10000)
    [⟨"BTC:X:Y", "BTC", "X", "Y", 0, 3/10000, false, some 3600⟩]
    ⟨"BTC:X:Y", "BTC", "X", "Y", 0, 3/10000, false, some 3600⟩
    (by rw [findPosition_cons]; simp [make_position_key])).1

theorem classifyEmerging_cases (now : ℚ) (st : Settings)
    (hist : List SpreadRecord) (opp : ArbOpportunity)
    (ps : List EstablishedPosition) :
    (classifyEmerging now st hist opp ps).1 ≠ Tier.established ∧
    (classifyEmerging now st hist opp ps).2 = ps := by
  unfold classifyEmerging
  split
  · split
    · exact ⟨by simp, rfl⟩
    · exact ⟨by simp, rfl⟩
  · exact ⟨by simp, rfl⟩

theorem classifyEmerging_tier_indep (now : ℚ) (st : Settings)
    (hist : List SpreadRecord) (opp : ArbOpportunity)
    (ps ps2 : List EstablishedPosition) :
    (classifyEmerging now st hist opp ps).1
      = (classifyEmerging now st hist opp ps2).1 := by
  unfold classifyEmerging
  split
  · split <;> rfl
  · rfl

theorem classifyStep_tier_indep (now : ℚ) (st : Settings)
    (hist : List SpreadRecord) (opp : ArbOpportunity)
    (ps ps2 : List EstablishedPosition) :
    (classifyStep now st hist opp ps).1 = (classifyStep now st hist opp ps2).1 := by
  unfold classifyStep
  split
  · split
    · split <;> rfl
    · exact classifyEmerging_tier_indep now st hist opp ps ps2
  · exact classifyEmerging_tier_indep now st hist opp ps ps2

theorem classifyStep_store_cases (now : ℚ) (st : Settings)
    (hist : List SpreadRecord) (opp : ArbOpportunity)
    (ps : List EstablishedPosition) :
    ((classifyStep now st hist opp ps).1 = Tier.established ∧
      (classifyStep now st hist opp ps).2
        = upsert_established_position now opp.symbol opp.short_venue
            opp.long_venue opp.net_spread ps) ∨
    ((classifyStep now st hist opp ps).1 ≠ Tier.established ∧
      (classifyStep now st hist opp ps).2 = ps) := by
  unfold classifyStep
  split
  · split
    · split
      · exact Or.inl ⟨rfl, rfl⟩
      · exact Or.inr ⟨by simp, rfl⟩
    · exact Or.inr (classifyEmerging_cases now st hist opp ps)
  · exact Or.inr (classifyEmerging_cases now st hist opp ps)

/-- C7: classifying the same opportunity against the same history (and
the same clock reading) twice in a row yields the same tier both times,
and the second call does not change the position store at all: in
particular `established_at`, `is_active` and `exit_alerted_at` are
exactly what the first call left them, and `last_seen_spread` is
refreshed to the same value. -/
theorem classify_idempotent (now : ℚ) (st : Settings)
    (hist : List SpreadRecord) (opp : ArbOpportunity)
    (ps : List EstablishedPosition) :
    (classifyStep now st hist opp ((classifyStep now st hist opp ps).2)).1
        = (classifyStep now st hist opp ps).1 ∧
    (classifyStep now st hist opp ((classifyStep now st hist opp ps).2)).2
        = (classifyStep now st hist opp ps).2 := by
  refine ⟨classifyStep_tier_indep now st hist opp _ ps, ?_⟩
  rcases classifyStep_store_cases now st hist opp ps with ⟨ht1, hs1⟩ | ⟨ht1, hs1⟩
  · rcases classifyStep_store_cases now st hist opp
        ((classifyStep now st hist opp ps).2) with ⟨_, hs2⟩ | ⟨ht2, _⟩
    · rw [hs2, hs1, upsert_idem]
    · exact absurd (classifyStep_tier_indep now st hist opp
        ((classifyStep now st hist opp ps).2) ps ▸ ht1) ht2
  · rw [hs1]
    exact hs1

/-- The classification tier of one opportunity, independent of the
position store. -/
def tierOf (now : ℚ) (st : Settings)
    (histories : String → String → String → List SpreadRecord)
    (o : ArbOpportunity) : Tier :=
  (classifyStep now st (histories o.symbol o.short_venue o.long_venue) o []).1

theorem classifyFold_fst (now : ℚ) (st : Settings)
    (histories : String → String → String → List SpreadRecord)
    (acc : List ArbOpportunity × List ArbOpportunity × List String × List EstablishedPosition)
    (opp : ArbOpportunity) :
    (classifyFold now st histories acc opp).1
      = if tierOf now st histories opp = Tier.established
        then acc.1 ++ [opp] else acc.1 := by
  unfold classifyFold tierOf
  rw [classifyStep_tier_indep now st _ opp [] acc.2.2.2]
  cases h : (classifyStep now st (histories opp.symbol opp.short_venue opp.long_venue)
      opp acc.2.2.2).1 <;> simp [h]

theorem classifyFold_emg (now : ℚ) (st : Settings)
    (histories : String → String → String → List SpreadRecord)
    (acc : List ArbOpportunity × List ArbOpportunity × List String × List EstablishedPosition)
    (opp : ArbOpportunity) :
    (classifyFold now st histories acc opp).2.1
      = if tierOf now st histories opp = Tier.emerging
        then acc.2.1 ++ [opp] else acc.2.1 := by
  unfold classifyFold tierOf
  rw [classifyStep_tier_indep now st _ opp [] acc.2.2.2]
  cases h : (classifyStep now st (histories opp.symbol opp.short_venue opp.long_venue)
      opp acc.2.2.2).1 <;> simp [h]

theorem classify_fold_mem (now : ℚ) (st : Settings)
    (histories : String → String → String → List SpreadRecord) :
    ∀ (opps : List ArbOpportunity)
      (acc : List ArbOpportunity × List ArbOpportunity × List String × List EstablishedPosition),
      (∀ o ∈ (opps.foldl (classifyFold now st histories) acc).1,
          o ∈ acc.1 ∨ (o ∈ opps ∧ tierOf now st histories o = Tier.established)) ∧
      (∀ o ∈ (opps.foldl (classifyFold now st histories) acc).2.1,
          o ∈ acc.2.1 ∨ (o ∈ opps ∧ tierOf now st histories o = Tier.emerging)) := by
  intro opps
  induction opps with
  | nil => intro acc; exact ⟨fun o ho => Or.inl ho, fun o ho => Or.inl ho⟩
  | cons p t ih =>
      intro acc
      rw [List.foldl_cons]
      constructor
      · intro o ho
        rcases (ih _).1 o ho with h | ⟨hmem, htier⟩
        · rw [classifyFold_fst] at h
          by_cases hp : tierOf now st histories p = Tier.established
          · rw [if_pos hp] at h
            rcases List.mem_append.mp h with h2 | h2
            · exact Or.inl h2
            · have : o = p := List.mem_singleton.mp h2
              exact Or.inr ⟨by simp [this], this ▸ hp⟩
          · rw [if_neg hp] at h
            exact Or.inl h
        · exact Or.inr ⟨by simp [hmem], htier⟩
      · intro o ho
        rcases (ih _).2 o ho with h | ⟨hmem, htier⟩
        · rw [classifyFold_emg] at h
          by_cases hp : tierOf now st histories p = Tier.emerging
          · rw [if_pos hp] at h
            rcases List.mem_append.mp h with h2 | h2
            · exact Or.inl h2
            · have : o = p := List.mem_singleton.mp h2
              exact Or.inr ⟨by simp [this], this ▸ hp⟩
          · rw [if_neg hp] at h
            exact Or.inl h
        · exact Or.inr ⟨by simp [hmem], htier⟩

/-- C3 (amended): the classifier sends an opportunity to the emerging
analysis only when the established analysis fails its duration gate (no
stats, or duration below `established_min_hours`); an opportunity whose
key has a sufficiently long run at the established threshold but whose
current net spread is below `established_min_spread` is dropped for the
cycle without the emerging check (the `continue` in the loop); Emerging
requires emerging stats plus current net spread at or above
`emerging_min_spread`; and Established and Emerging are mutually
exclusive for one opportunity in one cycle. -/
theorem classify_tier_gate (now : ℚ) (st : Settings)
    (histories : String → String → String → List SpreadRecord)
    (opps : List ArbOpportunity) (ps : List EstablishedPosition) :
    (∀ (hist : List SpreadRecord) (opp : ArbOpportunity)
        (ps0 : List EstablishedPosition) (stats : ExtStats),
      get_extended_spread_stats now hist st.established_min_spread st.fee_buffer
          = some stats →
      st.established_min_hours ≤ stats.duration_hours →
      opp.net_spread < st.established_min_spread →
      classifyStep now st hist opp ps0 = (Tier.untiered, ps0)) ∧
    (∀ (hist : List SpreadRecord) (opp : ArbOpportunity)
        (ps0 : List EstablishedPosition),
      (classifyStep now st hist opp ps0).1 = Tier.emerging ↔
        (∀ stats, get_extended_spread_stats now hist st.established_min_spread
            st.fee_buffer = some stats →
          stats.duration_hours < st.established_min_hours) ∧
        (get_extended_spread_stats now hist st.emerging_min_spread
          st.fee_buffer).isSome = true ∧
        st.emerging_min_spread ≤ opp.net_spread) ∧
    (∀ o, o ∈ (classify_opportunities now st histories opps ps).1 →
        o ∉ (classify_opportunities now st histories opps ps).2.1) := by
  refine ⟨?_, ?_, ?_⟩
  · intro hist opp ps0 stats hstats hd hnet
    unfold classifyStep
    rw [hstats]
    simp only
    rw [if_pos hd, if_neg (not_le.mpr hnet)]
  · intro hist opp ps0
    unfold classifyStep
    cases hst : get_extended_spread_stats now hist st.established_min_spread
        st.fee_buffer with
    | some stats =>
        simp only
        by_cases hd : st.established_min_hours ≤ stats.duration_hours
        · rw [if_pos hd]
          by_cases hnet : st.established_min_spread ≤ opp.net_spread
          · rw [if_pos hnet]
            constructor
            · intro h; cases h
            · rintro ⟨h1, _, _⟩
              exact absurd hd (not_le.mpr (h1 stats rfl))
          · rw [if_neg hnet]
            constructor
            · intro h; cases h
            · rintro ⟨h1, _, _⟩
              exact absurd hd (not_le.mpr (h1 stats rfl))
        · rw [if_neg hd]
          unfold classifyEmerging
          cases hemg : get_extended_spread_stats now hist st.emerging_min_spread
              st.fee_buffer with
          | some s2 =>
              simp only
              by_cases hn : st.emerging_min_spread ≤ opp.net_spread
              · rw [if_pos hn]
                constructor
                · intro _
                  refine ⟨?_, rfl, hn⟩
                  intro s3 h3
                  cases h3
                  exact not_le.mp hd
                · intro _
                  rfl
              · rw [if_neg hn]
                constructor
                · intro h; cases h
                · rintro ⟨_, _, h3⟩
                  exact absurd h3 hn
          | none =>
              simp only
              constructor
              · intro h; cases h
              · rintro ⟨_, h2, _⟩
                cases h2
    | none =>
        simp only
        unfold classifyEmerging
        cases hemg : get_extended_spread_stats now hist st.emerging_min_spread
            st.fee_buffer with
        | some s2 =>
            simp only
            by_cases hn : st.emerging_min_spread ≤ opp.net_spread
            · rw [if_pos hn]
              constructor
              · intro _
                refine ⟨?_, rfl, hn⟩
                intro s3 h3
                cases h3
              · intro _
                rfl
            · rw [if_neg hn]
              constructor
              · intro h; cases h
              · rintro ⟨_, _, h3⟩
                exact absurd h3 hn
        | none =>
            simp only
            constructor
            · intro h; cases h
            · rintro ⟨_, h2, _⟩
              cases h2
  · intro o ho hoe
    unfold classify_opportunities at ho hoe
    rcases (classify_fold_mem now st histories opps ([], [], [], ps)).1 o ho with
      h | ⟨_, ht1⟩
    · simp at h
    · rcases (classify_fold_mem now st histories opps ([], [], [], ps)).2 o hoe with
        h | ⟨_, ht2⟩
      · simp at h
      · rw [ht1] at ht2
        cases ht2

/-- C3 (counterexample): the key has a 200-hour run at the established
threshold 3/10000 (well above the 48-hour gate) but the current net
spread 2/10000 is below the established threshold while above the
emerging threshold 1/10000 with emerging stats available, yet the
classifier drops the opportunity entirely instead of classifying it
Emerging. -/
theorem classify_counterexample :
    (get_extended_spread_stats 0
        [⟨0, 5/10000, 4/10000, none⟩, ⟨-720000, 5/10000, 4/10000, none⟩]
        (3/10000) (1/10000)).map ExtStats.duration_hours = some 200 ∧
    (48 : ℚ) ≤ 200 ∧
    (2 : ℚ)/10000 < 3/10000 ∧
    (get_extended_spread_stats 0
        [⟨0, 5/10000, 4/10000, none⟩, ⟨-720000, 5/10000, 4/10000, none⟩]
        (1/10000) (1/10000)).isSome = true ∧
    (1 : ℚ)/10000 ≤ 2/10000 ∧
    (classifyStep 0 ⟨1/10000, 3/10000, 1/10000, 48, true⟩
        [⟨0, 5/10000, 4/10000, none⟩, ⟨-720000, 5/10000, 4/10000, none⟩]
        ⟨"BTC", "X", 3/10000, "Y", 1/10000, 3/10000, 2/10000, none, none, none⟩
        []).1 = Tier.untiered := by
  refine ⟨?_, by norm_num, by norm_num, ?_, by norm_num, ?_⟩ <;>
    norm_num [classifyStep, classifyEmerging, get_extended_spread_stats,
      get_continuous_duration, continuousStart, queryAsc, trendOf, rsum,
      pymin, pymax]

theorem classify_tier_gate_witness :
    classifyStep 0 ⟨1/10000, 3/10000, 1/10000, 48, true⟩
        [⟨0, 5/10000, 4/10000, none⟩, ⟨-720000, 5/10000, 4/10000, none⟩]
        ⟨"BTC", "X", 3/10000, "Y", 1/10000, 3/10000, 2/10000, none, none, none⟩
        [] = (Tier.untiered, []) :=
  (classify_tier_gate 0 ⟨1/10000, 3/10000, 1/10000, 48, true⟩
      (fun _ _ _ => []) [] []).1
    [⟨0, 5/10000, 4/10000, none⟩, ⟨-720000, 5/10000, 4/10000, none⟩]
    ⟨"BTC", "X", 3/10000, "Y", 1/10000, 3/10000, 2/10000, none, none, none⟩
    [] ⟨200, 1/2500, 1/2500, 1/2500, "new", 1, none, none⟩
    (by norm_num [get_extended_spread_stats, get_continuous_duration,
      continuousStart, queryAsc, trendOf, rsum, pymin, pymax])
    (by norm_num) (by norm_num)

theorem dictFind_dictInsert_same {α : Type} (k : String) (v : α) :
    ∀ m : List (String × α), dictFind k (dictInsert k v m) = some v := by
  intro m
  induction m with
  | nil => simp [dictInsert, dictFind]
  | cons e rest ih =>
      rw [dictInsert]
      by_cases h : e.1 = k
      · rw [if_pos h, dictFind, if_pos rfl]
      · rw [if_neg h, dictFind, if_neg h, ih]

theorem dictFind_dictInsert_other {α : Type} (k k2 : String) (v : α)
    (hne : k2 ≠ k) :
    ∀ m : List (String × α), dictFind k2 (dictInsert k v m) = dictFind k2 m := by
  intro m
  induction m with
  | nil =>
      simp only [dictInsert, dictFind]
      rw [if_neg (fun h => hne h.symm)]
  | cons e rest ih =>
      rw [dictInsert]
      by_cases h : e.1 = k
      · rw [if_pos h, dictFind, if_neg (fun hc => hne hc.symm), dictFind,
          if_neg (by rw [h]; exact fun hc => hne hc.symm)]
      · rw [if_neg h, dictFind, dictFind, ih]

theorem foldl_fetchFold_frame (k : String) :
    ∀ (l : List Connector) (acc : VenueMap × VenueMap),
      (∀ c ∈ l, fetchOk c = true → c.venue_name ≠ k) →
      dictFind k (l.foldl fetchFold acc).1 = dictFind k acc.1 ∧
      dictFind k (l.foldl fetchFold acc).2 = dictFind k acc.2 := by
  intro l
  induction l with
  | nil => intro acc _; exact ⟨rfl, rfl⟩
  | cons c t ih =>
      intro acc hl
      rw [List.foldl_cons]
      cases hc : c.fetch with
      | ok data =>
          have hname : c.venue_name ≠ k := hl c (by simp) (by simp [fetchOk, hc])
          have hstep : fetchFold acc c
              = (dictInsert c.venue_name (data.map (fun e => (e.1, e.2.funding_rate))) acc.1,
                  dictInsert c.venue_name
                    (data.filterMap (fun e => e.2.mark_price.map (fun mp => (e.1, mp)))) acc.2) := by
            unfold fetchFold
            rw [hc]
          rw [hstep]
          have hrest := ih
            (dictInsert c.venue_name (data.map (fun e => (e.1, e.2.funding_rate))) acc.1,
              dictInsert c.venue_name
                (data.filterMap (fun e => e.2.mark_price.map (fun mp => (e.1, mp)))) acc.2)
            (fun c2 h2 => hl c2 (by simp [h2]))
          refine ⟨?_, ?_⟩
          · rw [hrest.1]
            exact dictFind_dictInsert_other c.venue_name k _
              (fun hc2 => hname hc2.symm) acc.1
          · rw [hrest.2]
            exact dictFind_dictInsert_other c.venue_name k _
              (fun hc2 => hname hc2.symm) acc.2
      | error e =>
          have hstep : fetchFold acc c = acc := by
            unfold fetchFold
            rw [hc]
          rw [hstep]
          exact ih acc (fun c2 h2 => hl c2 (by simp [h2]))

theorem fetch_all_eq_healthy :
    ∀ (l : List Connector) (acc : VenueMap × VenueMap),
      l.foldl fetchFold acc = (l.filter fetchOk).foldl fetchFold acc := by
  intro l
  induction l with
  | nil => intro acc; rfl
  | cons c t ih =>
      intro acc
      rw [List.foldl_cons, List.filter_cons]
      cases hc : c.fetch with
      | ok data =>
          rw [if_pos (by simp [fetchOk, hc]), List.foldl_cons, ih]
      | error e =>
          have hstep : fetchFold acc c = acc := by
            unfold fetchFold
            rw [hc]
          rw [if_neg (by simp [fetchOk, hc]), hstep, ih]

/-- C9: a venue whose fetch raises or times out contributes nothing to the
merged maps - the aggregation equals the aggregation over the healthy
connectors alone, the failing venue is absent from both maps (when no
healthy connector shares its name), every healthy venue's full fetched
data is present under its name (with distinct healthy names), and the
computed opportunities coincide with those of the healthy-only world: the
failure never aborts the collection. -/
theorem venue_failure_isolated (connectors : List Connector) :
    (fetch_all_funding_with_prices connectors
        = fetch_all_funding_with_prices (connectors.filter fetchOk)) ∧
    (∀ c ∈ connectors, ∀ err, c.fetch = .error err →
      (∀ c2 ∈ connectors, fetchOk c2 = true → c2.venue_name ≠ c.venue_name) →
      dictFind c.venue_name (fetch_all_funding_with_prices connectors).1 = none ∧
      dictFind c.venue_name (fetch_all_funding_with_prices connectors).2 = none) ∧
    (∀ c ∈ connectors, ∀ data, c.fetch = .ok data →
      ((connectors.filter fetchOk).map Connector.venue_name).Nodup →
      dictFind c.venue_name (fetch_all_funding_with_prices connectors).1
        = some (data.map (fun e => (e.1, e.2.funding_rate))) ∧
      dictFind c.venue_name (fetch_all_funding_with_prices connectors).2
        = some (data.filterMap (fun e => e.2.mark_price.map (fun mp => (e.1, mp))))) ∧
    (∀ (symbols : List String) (fee_buffer min_spread : ℚ),
      compute_all_arbs symbols (fetch_all_funding_with_prices connectors).1
          fee_buffer min_spread (fetch_all_funding_with_prices connectors).2
        = compute_all_arbs symbols
            (fetch_all_funding_with_prices (connectors.filter fetchOk)).1
            fee_buffer min_spread
            (fetch_all_funding_with_prices (connectors.filter fetchOk)).2) := by
  have hhealthy : fetch_all_funding_with_prices connectors
      = fetch_all_funding_with_prices (connectors.filter fetchOk) :=
    fetch_all_eq_healthy connectors ([], [])
  refine ⟨hhealthy, ?_, ?_, ?_⟩
  · intro c _ err herr hnoname
    unfold fetch_all_funding_with_prices
    have := foldl_fetchFold_frame c.venue_name connectors ([], [])
      (fun c2 h2 hok => hnoname c2 h2 hok)
    exact ⟨this.1, this.2⟩
  · intro c hmem data hok hnd
    obtain ⟨l1, l2, rfl⟩ := List.append_of_mem hmem
    have hcok : fetchOk c = true := by simp [fetchOk, hok]
    have hfilter : (l1 ++ c :: l2).filter fetchOk
        = l1.filter fetchOk ++ c :: l2.filter fetchOk := by
      rw [List.filter_append, List.filter_cons, if_pos (by simp [hcok])]
    have hl2names : ∀ c2 ∈ l2, fetchOk c2 = true → c2.venue_name ≠ c.venue_name := by
      intro c2 h2 hok2 hc2
      rw [hfilter, List.map_append, List.map_cons, List.nodup_append] at hnd
      have := (List.nodup_cons.mp hnd.2.1).1
      exact this (List.mem_map.mpr ⟨c2, List.mem_filter.mpr ⟨h2, hok2⟩, hc2⟩)
    unfold fetch_all_funding_with_prices
    have hstep : fetchFold (l1.foldl fetchFold ([], [])) c
        = (dictInsert c.venue_name (data.map (fun e => (e.1, e.2.funding_rate)))
              (l1.foldl fetchFold ([], [])).1,
            dictInsert c.venue_name
              (data.filterMap (fun e => e.2.mark_price.map (fun mp => (e.1, mp))))
              (l1.foldl fetchFold ([], [])).2) := by
      unfold fetchFold
      rw [hok]
    rw [List.foldl_append, List.foldl_cons, hstep]
    have hframe := foldl_fetchFold_frame c.venue_name l2
      (dictInsert c.venue_name (data.map (fun e => (e.1, e.2.funding_rate)))
          (l1.foldl fetchFold ([], [])).1,
        dictInsert c.venue_name
          (data.filterMap (fun e => e.2.mark_price.map (fun mp => (e.1, mp))))
          (l1.foldl fetchFold ([], [])).2) hl2names
    rw [hframe.1, hframe.2]
    exact ⟨dictFind_dictInsert_same _ _ _, dictFind_dictInsert_same _ _ _⟩
  · intro symbols fee_buffer min_spread
    rw [hhealthy]

theorem mem_dictInsert {α : Type} (k : String) (v : α) :
    ∀ (m : List (String × α)) (x : String × α),
      x ∈ dictInsert k v m → x = (k, v) ∨ x ∈ m := by
  intro m
  induction m with
  | nil => intro x hx; simpa [dictInsert] using hx
  | cons e rest ih =>
      intro x hx
      rw [dictInsert] at hx
      by_cases h : e.1 = k
      · rw [if_pos h] at hx
        rcases List.mem_cons.mp hx with rfl | hx2
        · exact Or.inl rfl
        · exact Or.inr (by simp [hx2])
      · rw [if_neg h] at hx
        rcases List.mem_cons.mp hx with rfl | hx2
        · exact Or.inr (by simp)
        · rcases ih x hx2 with h3 | h3
          · exact Or.inl h3
          · exact Or.inr (by simp [h3])

theorem hip3Fold_cases (dex : String) (acc : List (String × FundingData))
    (a : Hip3Asset) :
    hip3Fold dex acc a = acc ∨
    (a.isDelisted = false ∧ a.name ≠ "" ∧ ∃ f, a.funding = some f ∧
      hip3Fold dex acc a
        = dictInsert
            (((dictFind (hip3_base a.name) HIP3_NORMALIZE).getD (hip3_base a.name))
              ++ "_" ++ dex)
            { funding_rate := f * 8
              mark_price := truthyPrice a.markPx
              index_price := truthyPrice a.oraclePx } acc) := by
  unfold hip3Fold
  by_cases h1 : a.isDelisted
  · rw [if_pos h1]; exact Or.inl rfl
  · rw [if_neg h1]
    by_cases h2 : a.name = ""
    · rw [if_pos h2]; exact Or.inl rfl
    · rw [if_neg h2]
      cases hf : a.funding with
      | none => exact Or.inl rfl
      | some f =>
          exact Or.inr ⟨by simpa using h1, h2, f, rfl, rfl⟩

theorem fetch_hip3_mem (dex : String) :
    ∀ (assets : List Hip3Asset) (acc : List (String × FundingData)),
      ∀ x ∈ assets.foldl (hip3Fold dex) acc,
        x ∈ acc ∨ ∃ a ∈ assets, a.isDelisted = false ∧ a.name ≠ "" ∧
          ∃ f, a.funding = some f ∧
            x.1 = ((dictFind (hip3_base a.name) HIP3_NORMALIZE).getD
                (hip3_base a.name)) ++ "_" ++ dex ∧
            x.2 = { funding_rate := f * 8
                    mark_price := truthyPrice a.markPx
                    index_price := truthyPrice a.oraclePx } := by
  intro assets
  induction assets with
  | nil => intro acc x hx; exact Or.inl hx
  | cons a t ih =>
      intro acc x hx
      rw [List.foldl_cons] at hx
      rcases ih _ x hx with h | ⟨a2, ha2, hrest⟩
      · rcases hip3Fold_cases dex acc a with hcase | ⟨hd, hn, f, hf, hcase⟩
        · rw [hcase] at h
          exact Or.inl h
        · rw [hcase] at h
          rcases mem_dictInsert _ _ acc x h with h2 | h2
          · right
            exact ⟨a, by simp, hd, hn, f, hf,
              by rw [h2], by rw [h2]⟩
          · exact Or.inl h2
      · exact Or.inr ⟨a2, by simp [ha2], hrest⟩

theorem fetch_all_keys_sub :
    ∀ (l : List Connector) (acc : VenueMap × VenueMap),
      (∀ v ∈ ((l.foldl fetchFold acc).1).map Prod.fst,
          v ∈ acc.1.map Prod.fst ∨ v ∈ l.map Connector.venue_name) ∧
      (∀ v ∈ ((l.foldl fetchFold acc).2).map Prod.fst,
          v ∈ acc.2.map Prod.fst ∨ v ∈ l.map Connector.venue_name) := by
  intro l
  induction l with
  | nil => intro acc; exact ⟨fun v hv => Or.inl hv, fun v hv => Or.inl hv⟩
  | cons c t ih =>
      intro acc
      rw [List.foldl_cons]
      have hsub : ∀ m : VenueMap, ∀ v2 ∈ (fetchFold acc c).1.map Prod.fst,
          v2 ∈ acc.1.map Prod.fst ∨ v2 = c.venue_name := by
        intro _ v2 hv2
        cases hc : c.fetch with
        | ok data =>
            have hstep : (fetchFold acc c).1
                = dictInsert c.venue_name
                    (data.map (fun e => (e.1, e.2.funding_rate))) acc.1 := by
              unfold fetchFold
              rw [hc]
            rw [hstep] at hv2
            obtain ⟨x, hx, hxv⟩ := List.mem_map.mp hv2
            rcases mem_dictInsert _ _ acc.1 x hx with h2 | h2
            · exact Or.inr (by rw [← hxv, h2])
            · exact Or.inl (List.mem_map.mpr ⟨x, h2, hxv⟩)
        | error e =>
            have hstep : (fetchFold acc c).1 = acc.1 := by
              unfold fetchFold
              rw [hc]
            rw [hstep] at hv2
            exact Or.inl hv2
      have hsub2 : ∀ v2 ∈ (fetchFold acc c).2.map Prod.fst,
          v2 ∈ acc.2.map Prod.fst ∨ v2 = c.venue_name := by
        intro v2 hv2
        cases hc : c.fetch with
        | ok data =>
            have hstep : (fetchFold acc c).2
                = dictInsert c.venue_name
                    (data.filterMap (fun e => e.2.mark_price.map (fun mp => (e.1, mp))))
                    acc.2 := by
              unfold fetchFold
              rw [hc]
            rw [hstep] at hv2
            obtain ⟨x, hx, hxv⟩ := List.mem_map.mp hv2
            rcases mem_dictInsert _ _ acc.2 x hx with h2 | h2
            · exact Or.inr (by rw [← hxv, h2])
            · exact Or.inl (List.mem_map.mpr ⟨x, h2, hxv⟩)
        | error e =>
            have hstep : (fetchFold acc c).2 = acc.2 := by
              unfold fetchFold
              rw [hc]
            rw [hstep] at hv2
            exact Or.inl hv2
      constructor
      · intro v hv
        rcases (ih (fetchFold acc c)).1 v hv with h | h
        · rcases hsub acc.1 v h with h2 | h2
          · exact Or.inl h2
          · exact Or.inr (by simp [h2])
        · exact Or.inr (by simp [h])
      · intro v hv
        rcases (ih (fetchFold acc c)).2 v hv with h | h
        · rcases hsub2 v h with h2 | h2
          · exact Or.inl h2
          · exact Or.inr (by simp [h2])
        · exact Or.inr (by simp [h])

/-- C8 (amended): the HIP-3 connector strips the `dex:` prefix from the
raw asset name and appends the dex suffix to the *instrument* identifier:
every key it produces has the form `normalizedBase_dex` with the funding
scaled to an 8-hour rate, and the aggregated funding and price maps only
ever contain the connectors own venue names - the sub-market suffix never
moves onto the venue, so sub-market quotes are distinct instruments under
the same venue, not distinct venues. -/
theorem hip3_suffix_on_instrument (dex : String) (assets : List Hip3Asset) :
    (∀ x ∈ fetch_hip3_dex dex assets,
      ∃ a ∈ assets, a.isDelisted = false ∧ a.name ≠ "" ∧
        ∃ f, a.funding = some f ∧
          x.1 = ((dictFind (hip3_base a.name) HIP3_NORMALIZE).getD
              (hip3_base a.name)) ++ "_" ++ dex ∧
          x.2 = { funding_rate := f * 8
                  mark_price := truthyPrice a.markPx
                  index_price := truthyPrice a.oraclePx } ) ∧
    (∀ connectors : List Connector,
      (∀ v ∈ ((fetch_all_funding_with_prices connectors).1).map Prod.fst,
          v ∈ connectors.map Connector.venue_name) ∧
      (∀ v ∈ ((fetch_all_funding_with_prices connectors).2).map Prod.fst,
          v ∈ connectors.map Connector.venue_name)) := by
  constructor
  · intro x hx
    rcases fetch_hip3_mem dex assets [] x hx with h | h
    · simp at h
    · exact h
  · intro connectors
    have h := fetch_all_keys_sub connectors ([], [])
    exact ⟨fun v hv => (h.1 v hv).resolve_left (by simp),
      fun v hv => (h.2 v hv).resolve_left (by simp)⟩

/-- C8 (counterexample): the HIP-3 asset `hyna:SOL` is placed into the
funding map as the instrument key `SOL_hyna` under the venue name
`hyperliquid` itself; no split venue `hyperliquid_hyna` exists in the
map, so the sub-market suffix is not appended to the venue display name
and the identifier is not reduced to the canonical base before entering
the maps. -/
theorem hip3_counterexample :
    hip3_base "hyna:SOL" = "SOL" ∧
    (fetch_hip3_dex "hyna"
        [⟨"hyna:SOL", false, some (1/100000), none, none⟩]).map Prod.fst
      = ["SOL_hyna"] ∧
    dictFind "hyperliquid_hyna"
      (fetch_all_funding_with_prices
        [⟨"hyperliquid", .ok (fetch_hip3_dex "hyna"
            [⟨"hyna:SOL", false, some (1/100000), none, none⟩])⟩]).1 = none ∧
    ((dictFind "hyperliquid"
      (fetch_all_funding_with_prices
        [⟨"hyperliquid", .ok (fetch_hip3_dex "hyna"
            [⟨"hyna:SOL", false, some (1/100000), none, none⟩])⟩]).1).map
        (List.map Prod.fst)) = some ["SOL_hyna"] := by
  refine ⟨rfl, rfl, rfl, rfl⟩

theorem hip3_suffix_on_instrument_witness :
    ∃ a ∈ ([⟨"hyna:SOL", false, some (1/100000), none, none⟩] : List Hip3Asset),
      a.isDelisted = false ∧ a.name ≠ "" ∧ ∃ f, a.funding = some f ∧
        ("SOL_hyna",
          ({ funding_rate := 1/100000 * 8, mark_price := truthyPrice none,
             index_price := truthyPrice none } : FundingData)).1
          = ((dictFind (hip3_base a.name) HIP3_NORMALIZE).getD
              (hip3_base a.name)) ++ "_" ++ "hyna" ∧
        ("SOL_hyna",
          ({ funding_rate := 1/100000 * 8, mark_price := truthyPrice none,
             index_price := truthyPrice none } : FundingData)).2
          = { funding_rate := f * 8
              mark_price := truthyPrice a.markPx
              index_price := truthyPrice a.oraclePx } :=
  (hip3_suffix_on_instrument "hyna"
      [⟨"hyna:SOL", false, some (1/100000), none, none⟩]).1
    ("SOL_hyna", ⟨1/100000 * 8, truthyPrice none, truthyPrice none⟩)
    (List.mem_singleton.mpr rfl)

theorem venue_failure_isolated_witness :
    dictFind "paradex"
      (fetch_all_funding_with_prices
        [⟨"hyperliquid", .ok [("BTC", ⟨5/10000, none, none⟩)]⟩,
          ⟨"paradex", .error "timeout"⟩]).1 = none ∧
    dictFind "hyperliquid"
      (fetch_all_funding_with_prices
        [⟨"hyperliquid", .ok [("BTC", ⟨5/10000, none, none⟩)]⟩,
          ⟨"paradex", .error "timeout"⟩]).1
      = some [("BTC", 5/10000)] := by
  constructor
  · exact ((venue_failure_isolated
      [⟨"hyperliquid", .ok [("BTC", ⟨5/10000, none, none⟩)]⟩,
        ⟨"paradex", .error "timeout"⟩]).2.1
      ⟨"paradex", .error "timeout"⟩ (by simp) "timeout" rfl
      (by
        intro c2 h2 hok hc
        rcases List.mem_cons.mp h2 with rfl | h3
        · simp at hc
        · rcases List.mem_cons.mp h3 with rfl | h4
          · simp [fetchOk] at hok
          · simp at h4)).1
  · exact ((venue_failure_isolated
      [⟨"hyperliquid", .ok [("BTC", ⟨5/10000, none, none⟩)]⟩,
        ⟨"paradex", .error "timeout"⟩]).2.2.1
      ⟨"hyperliquid", .ok [("BTC", ⟨5/10000, none, none⟩)]⟩ (by simp)
      [("BTC", ⟨5/10000, none, none⟩)] rfl (by simp [fetchOk])).1

end FundingArb
